import Mathlib

/-!
Shallow embedding of the L402 macaroon-caveat decoding pipeline
(`l402-helpers`): base64 decoding, the LEB128-style varint reader, the
macaroon v2 TLV walker, the macaroon v1 packet walker, the caveat grammar,
the constraint aggregator, the `WWW-Authenticate` challenge parser and the
`Authorization` header injection.

Strings are modelled as `List Char` (one JS UTF-16 code unit per entry),
byte buffers as `List Nat` with entries below 256 (a `Uint8Array`).
JavaScript numbers produced by the bitwise operators `|`, `&`, `<<` are
32-bit signed integers; positions and field lengths that can become
negative are modelled as `Int`.  The v2 field loop is not structurally
terminating on adversarial input (a negative decoded field length moves
the position backwards), so it is modelled as a step function iterated
under explicit fuel; `none` means the loop has not finished within the
given fuel.
-/

namespace L402

/-- Reinterpret the low 32 bits of a natural number as a signed 32-bit
integer, the way JavaScript bitwise operators return their results. -/
def toInt32 (u : Nat) : Int :=
  if u % 4294967296 < 2147483648 then ((u % 4294967296 : Nat) : Int)
  else ((u % 4294967296 : Nat) : Int) - 4294967296

/-- `data[pos]` on a `Uint8Array`: out-of-range (including negative)
indices give `undefined`, which behaves as 0 in every bitwise operation
and in `String.fromCharCode` as used by this code. -/
def byteAt (d : List Nat) (p : Int) : Nat :=
  if h : 0 ≤ p ∧ p.toNat < d.length then d.get ⟨p.toNat, h.2⟩ else 0

/-- One UTF-16 code unit as produced by `String.fromCharCode`. -/
def jsChar (n : Nat) : Char := Char.ofNat (n % 65536)

/-- Loop body of `readVarint`.  The fuel is exactly the number of bytes
left before the `pos < data.length` guard fails, so the guard and the
fuel run out together.  `value` holds the 32-bit bit pattern of the JS
`value` variable; `(b & 0x7f) << shift` wraps at 32 bits and shifts by
`shift & 31`, exactly as the JS `<<` operator does. -/
def readVarintGo (d : List Nat) : Nat → Int → Nat → Nat → Nat × Int
  | 0, pos, value, _ => (value, pos)
  | fuel + 1, pos, value, shift =>
    if pos < (d.length : Int) then
      let b := byteAt d pos
      let v := value ||| (((b &&& 127) <<< (shift % 32)) % 4294967296)
      if b &&& 128 == 0 then (v, pos + 1)
      else readVarintGo d fuel (pos + 1) v (shift + 7)
    else (value, pos)

/-- `readVarint(data, pos)`: returns the decoded value (a signed 32-bit
JS number) and the position just after the last consumed byte. -/
def readVarint (d : List Nat) (pos : Int) : Int × Int :=
  let r := readVarintGo d ((d.length : Int) - pos).toNat pos 0 0
  (toInt32 r.1, r.2)

/-- `bytesToString(data, start, len)`: one character per byte via
`String.fromCharCode`. -/
def bytesToString (d : List Nat) (start len : Int) : List Char :=
  (List.range len.toNat).map (fun i => jsChar (byteAt d (start + Int.ofNat i)))

/-- State of the `extractCaveatsV2` field loop. -/
structure V2State where
  pos : Int
  isFirstSection : Bool
  caveats : List (List Char)
deriving DecidableEq

/-- One iteration of the `while (pos < data.length)` loop of
`extractCaveatsV2`.  `Sum.inr` is loop exit (normal or `break`) with the
collected caveats; `Sum.inl` continues with the next state. -/
def v2Step (d : List Nat) (s : V2State) : V2State ⊕ List (List Char) :=
  if s.pos < (d.length : Int) then
    let ft := readVarint d s.pos
    if ft.1 = 0 then Sum.inl ⟨ft.2, false, s.caveats⟩
    else
      let fl := readVarint d ft.2
      if (d.length : Int) < fl.2 + fl.1 then Sum.inr s.caveats
      else
        let caveats :=
          if ft.1 = 2 ∧ s.isFirstSection = false then
            s.caveats ++ [bytesToString d fl.2 fl.1]
          else s.caveats
        if ft.1 = 6 then Sum.inr caveats
        else Sum.inl ⟨fl.2 + fl.1, s.isFirstSection, caveats⟩
  else Sum.inr s.caveats

/-- Iterate `v2Step` under fuel; `none` means the loop is still running. -/
def v2Run (d : List Nat) : Nat → V2State → Option (List (List Char))
  | 0, _ => none
  | fuel + 1, s =>
    match v2Step d s with
    | Sum.inr r => some r
    | Sum.inl t => v2Run d fuel t

/-- `extractCaveatsV2(data)` under explicit fuel: the loop starts at
position 1 (after the version byte) in the header section. -/
def extractCaveatsV2 (d : List Nat) (fuel : Nat) : Option (List (List Char)) :=
  v2Run d fuel ⟨1, true, []⟩

/-- The whitespace set used by `String.prototype.trim`, the `parseInt`
prefix skip and the regex class `\s`. -/
def jsWhitespace (c : Char) : Bool :=
  c = ' ' ∨ c = '\t' ∨ c = '\n' ∨ c = '\r' ∨ c = '\x0b' ∨ c = '\x0c' ∨
  c = ' ' ∨ c = ' ' ∨ (' ' ≤ c ∧ c ≤ ' ') ∨
  c = ' ' ∨ c = ' ' ∨ c = ' ' ∨ c = ' ' ∨
  c = '　' ∨ c = '﻿'

/-- Value of one hexadecimal digit. -/
def hexDigitVal (c : Char) : Option Nat :=
  if '0' ≤ c ∧ c ≤ '9' then some (c.toNat - '0'.toNat)
  else if 'a' ≤ c ∧ c ≤ 'f' then some (c.toNat - 'a'.toNat + 10)
  else if 'A' ≤ c ∧ c ≤ 'F' then some (c.toNat - 'A'.toNat + 10)
  else none

/-- Accumulate the maximal leading run of hexadecimal digits. -/
def hexDigitsAcc : List Char → Nat → Nat
  | [], acc => acc
  | c :: r, acc =>
    match hexDigitVal c with
    | some v => hexDigitsAcc r (acc * 16 + v)
    | none => acc

/-- Whether the list starts with at least one hexadecimal digit. -/
def startsWithHexDigit : List Char → Bool
  | [] => false
  | c :: _ => (hexDigitVal c).isSome

/-- Drop a leading `0x` / `0X`, as `parseInt` does for radix 16. -/
def strip0x : List Char → List Char
  | '0' :: 'x' :: r => r
  | '0' :: 'X' :: r => r
  | l => l

/-- `parseInt(s, 16)`: skip whitespace, optional sign, optional `0x`,
then the maximal run of hex digits; `none` is `NaN` (no digits). -/
def parseHex16 (s : List Char) : Option Int :=
  let s1 := s.dropWhile jsWhitespace
  match s1 with
  | '-' :: r =>
    let r2 := strip0x r
    if startsWithHexDigit r2 then some (-(hexDigitsAcc r2 0 : Int)) else none
  | '+' :: r =>
    let r2 := strip0x r
    if startsWithHexDigit r2 then some ((hexDigitsAcc r2 0 : Int)) else none
  | r =>
    let r2 := strip0x r
    if startsWithHexDigit r2 then some ((hexDigitsAcc r2 0 : Int)) else none

/-- Split at the first space: `indexOf(' ')` plus the two slices.
`none` is `indexOf` returning `-1`. -/
def splitFirstSpace (l : List Char) : Option (List Char × List Char) :=
  if (l.takeWhile (fun c => c ≠ ' ')).length < l.length then
    some (l.takeWhile (fun c => c ≠ ' '), (l.dropWhile (fun c => c ≠ ' ')).tail)
  else none

/-- Strip one trailing newline, as the v1 caveat value handling does. -/
def stripTrailingNewline (l : List Char) : List Char :=
  if l.getLast? = some '\n' then l.dropLast else l

/-- The caveats contributed by the v1 packet at `pos` with the given
declared length: the body is split on the first space and the value is
kept only under the key `cid`. -/
def v1Packet (d : List Nat) (pos : Nat) (packetLen : Int) : List (List Char) :=
  let packetData := bytesToString d ((pos : Int) + 4) (packetLen - 4)
  match splitFirstSpace packetData with
  | none => []
  | some (key, value) =>
    if key = ['c', 'i', 'd'] then [stripTrailingNewline value] else []

/-- Loop body of `extractCaveatsV1`.  Each iteration advances `pos` by at
least 9, so fuel `d.length + 1` always outlasts the loop guard. -/
def v1Go (d : List Nat) : Nat → Nat → List (List Char)
  | 0, _ => []
  | fuel + 1, pos =>
    if pos + 8 < d.length then
      let lenHex := bytesToString d (pos : Int) 4
      match parseHex16 lenHex with
      | none => []
      | some packetLen =>
        if packetLen < 9 ∨ (d.length : Int) < (pos : Int) + packetLen then []
        else v1Packet d pos packetLen ++ v1Go d fuel (pos + packetLen.toNat)
    else []

/-- The v1 loop from an arbitrary start position, with canonical fuel. -/
def extractCaveatsV1From (d : List Nat) (pos : Nat) : List (List Char) :=
  v1Go d (d.length + 1) pos

/-- `extractCaveatsV1(data)`. -/
def extractCaveatsV1 (d : List Nat) : List (List Char) :=
  extractCaveatsV1From d 0

/-- The base64 alphabet value of one character. -/
def b64Val (c : Char) : Option Nat :=
  if 'A' ≤ c ∧ c ≤ 'Z' then some (c.toNat - 'A'.toNat)
  else if 'a' ≤ c ∧ c ≤ 'z' then some (c.toNat - 'a'.toNat + 26)
  else if '0' ≤ c ∧ c ≤ '9' then some (c.toNat - '0'.toNat + 52)
  else if c = '+' then some 62
  else if c = '/' then some 63
  else none

/-- Map every character through the base64 alphabet; any character
outside the alphabet fails the whole decode. -/
def b64Vals : List Char → Option (List Nat)
  | [] => some []
  | c :: r =>
    match b64Val c, b64Vals r with
    | some v, some vs => some (v :: vs)
    | _, _ => none

/-- Reassemble 6-bit groups into bytes, dropping leftover bits; a single
leftover group (length ≡ 1 mod 4) is a decode error. -/
def b64Bytes : List Nat → Option (List Nat)
  | [] => some []
  | [_] => none
  | [a, b] => some [(a * 4 + b / 16) % 256]
  | [a, b, c] => some [(a * 4 + b / 16) % 256, (b % 16 * 16 + c / 4) % 256]
  | a :: b :: c :: e :: rest =>
    match b64Bytes rest with
    | some bs =>
      some ((a * 4 + b / 16) % 256 :: (b % 16 * 16 + c / 4) % 256 ::
            (c % 4 * 64 + e) % 256 :: bs)
    | none => none

/-- ASCII whitespace removed by the forgiving-base64 decode of `atob`. -/
def asciiWhitespace (c : Char) : Bool :=
  c = ' ' ∨ c = '\t' ∨ c = '\n' ∨ c = '\x0c' ∨ c = '\r'

/-- Drop up to two trailing `=` characters when the length is a multiple
of four, as the forgiving-base64 decode does. -/
def b64StripPad (l : List Char) : List Char :=
  if l.length % 4 = 0 then
    if l.getLast? = some '=' then
      if l.dropLast.getLast? = some '=' then l.dropLast.dropLast else l.dropLast
    else l
  else l

/-- `atob(s)`: forgiving-base64 decode to a list of byte values;
`none` is the thrown `InvalidCharacterError`. -/
def atob (s : List Char) : Option (List Nat) :=
  let s1 := (s.filter (fun c => !asciiWhitespace c))
  let s2 := b64StripPad s1
  if s2.length % 4 = 1 then none
  else match b64Vals s2 with
    | some vs => b64Bytes vs
    | none => none

/-- `base64ToBytes(str)`: `-`/`_` are mapped to `+`/`/`, the string is
padded with `=` to a multiple of four characters, then `atob` decodes it
and `charCodeAt` reads the bytes back. -/
def base64ToBytes (s : List Char) : Option (List Nat) :=
  let b64 := s.map (fun c => if c = '-' then '+' else if c = '_' then '/' else c)
  let padded := b64 ++ List.replicate ((4 - b64.length % 4) % 4) '='
  atob padded

/-- `extractCaveatsFromMacaroon(base64Macaroon)` under fuel for the v2
loop.  `some []` covers both the caught decode exception and the
short-buffer guard; `none` means the v2 loop has not finished. -/
def extractCaveatsFromMacaroon (fuel : Nat) (s : List Char) :
    Option (List (List Char)) :=
  match base64ToBytes s with
  | none => some []
  | some data =>
    if data.length < 2 then some []
    else if data.headI = 2 then extractCaveatsV2 data fuel
    else some (extractCaveatsV1 data)

/-- `str.trim()`. -/
def jsTrim (l : List Char) : List Char :=
  ((l.dropWhile jsWhitespace).reverse.dropWhile jsWhitespace).reverse

/-- One decoded caveat: condition, comparator, value. -/
structure Caveat where
  condition : List Char
  comp : Char
  value : List Char
deriving DecidableEq

/-- Scan for the first comparator; `before` holds the characters already
passed, in reverse. -/
def decodeCaveatGo (before : List Char) : List Char → Option Caveat
  | [] => none
  | c :: rest =>
    if c = '=' ∨ c = '<' ∨ c = '>' then
      some ⟨jsTrim before.reverse, c, jsTrim rest⟩
    else decodeCaveatGo (c :: before) rest

/-- `decodeCaveat(str)`: scan left to right for the first `=`, `<` or
`>`; the text before (trimmed) is the condition, the text after
(trimmed) is the value. -/
def decodeCaveat (l : List Char) : Option Caveat :=
  decodeCaveatGo [] l

/-- A JavaScript number as this module meets it: `NaN`, the two
infinities, or a finite value.  A finite value is carried as the exact
mathematical value of its source literal (a rational); the rounding of
that value to the nearest IEEE-754 binary64 is the one aspect of JS
numbers not modelled (every value the spec or the claims mention — the
integers of `max_bandwidth` and `expiration` caveats — is exactly
representable, so rounding is the identity there), and `-0` is
identified with `0`, which the `|| 0` fallback below makes
unobservable. -/
inductive JSNum where
  | nan : JSNum
  | posInf : JSNum
  | negInf : JSNum
  | val : ℚ → JSNum
deriving DecidableEq

/-- The value of one character as a digit in a radix up to 16. -/
def digitValIn (radix : Nat) (c : Char) : Option Nat :=
  match hexDigitVal c with
  | some v => if v < radix then some v else none
  | none => none

/-- The value of a digit run in a radix; fails on a foreign character. -/
def digitsValGo (radix : Nat) : Nat → List Char → Option Nat
  | acc, [] => some acc
  | acc, c :: r =>
    match digitValIn radix c with
    | some v => digitsValGo radix (acc * radix + v) r
    | none => none

/-- The value of a non-empty digit run in a radix; `none` when the run
is empty or contains a foreign character. -/
def digitsVal (radix : Nat) (l : List Char) : Option Nat :=
  match l with
  | [] => none
  | _ => digitsValGo radix 0 l

/-- The base-10 value of a (known-good) decimal digit run. -/
def decValue (l : List Char) : Nat :=
  l.foldl (fun acc c => acc * 10 + (c.toNat - '0'.toNat)) 0

/-- `ExponentPart` after the `e`/`E`: an optional sign, then at least
one decimal digit exhausting the text. -/
def strExponent (l : List Char) : Option Int :=
  match l with
  | '+' :: r => (digitsVal 10 r).map Int.ofNat
  | '-' :: r => (digitsVal 10 r).map (fun n => -(n : Int))
  | r => (digitsVal 10 r).map Int.ofNat

/-- The pieces of `DecimalDigits? . DecimalDigits? ExponentPart?`: the
combined digit value (integer and fraction digits read as one run), the
number of fraction digits and the exponent.  Requires a digit on at
least one side of the dot and the whole text to belong to the
literal. -/
def strDecimalParts (l : List Char) : Option (Nat × Nat × Int) :=
  let intDigits := l.takeWhile Char.isDigit
  let rest := l.dropWhile Char.isDigit
  let fracDigits :=
    match rest with
    | '.' :: r => r.takeWhile Char.isDigit
    | _ => []
  let rest2 :=
    match rest with
    | '.' :: r => r.dropWhile Char.isDigit
    | _ => rest
  if intDigits = [] ∧ fracDigits = [] then none
  else
    match rest2 with
    | [] => some (decValue (intDigits ++ fracDigits), fracDigits.length, 0)
    | e :: r3 =>
      if e = 'e' ∨ e = 'E' then
        (strExponent r3).map
          (fun ex => (decValue (intDigits ++ fracDigits), fracDigits.length, ex))
      else none

/-- The mathematical value of a decimal literal from its pieces:
`± mant / 10 ^ fracLen * 10 ^ ex`, assembled as one normalized
rational. -/
def decLiteralVal (neg : Bool) (mant fracLen : Nat) (ex : Int) : ℚ :=
  let n : Int := if neg then -(mant : Int) else (mant : Int)
  match ex with
  | .ofNat e => mkRat (n * ((10 ^ e : Nat) : Int)) (10 ^ fracLen)
  | .negSucc e => mkRat n (10 ^ fracLen * 10 ^ (e + 1))

/-- The characters of the literal `Infinity`. -/
def infinityChars : List Char := ['I', 'n', 'f', 'i', 'n', 'i', 't', 'y']

/-- `StrUnsignedDecimalLiteral` (`Infinity` or a decimal literal) under
an already-consumed sign; `NaN` when the text is outside the grammar. -/
def strUnsignedToNum (l : List Char) (neg : Bool) : JSNum :=
  if l = infinityChars then if neg then .negInf else .posInf
  else
    match strDecimalParts l with
    | some (m, f, ex) => .val (decLiteralVal neg m f ex)
    | none => .nan

/-- `StrDecimalLiteral`: an optional sign, then `Infinity` or a decimal
literal. -/
def strSignedDecimal (l : List Char) : JSNum :=
  match l with
  | '+' :: r => strUnsignedToNum r false
  | '-' :: r => strUnsignedToNum r true
  | r => strUnsignedToNum r false

/-- `Number(string)`, the ECMAScript `StringNumericLiteral` semantics:
trim JS whitespace; an empty remainder is 0; `0x`/`0X`, `0o`/`0O` and
`0b`/`0B` prefixes introduce unsigned hexadecimal, octal and binary
integers; otherwise an optionally signed decimal literal or `Infinity`;
anything else is `NaN`. -/
def jsNumber (l : List Char) : JSNum :=
  match jsTrim l with
  | [] => .val 0
  | '0' :: x :: r =>
    if x = 'x' ∨ x = 'X' then
      match digitsVal 16 r with
      | some v => .val (mkRat (v : Int) 1)
      | none => .nan
    else if x = 'o' ∨ x = 'O' then
      match digitsVal 8 r with
      | some v => .val (mkRat (v : Int) 1)
      | none => .nan
    else if x = 'b' ∨ x = 'B' then
      match digitsVal 2 r with
      | some v => .val (mkRat (v : Int) 1)
      | none => .nan
    else strSignedDecimal ('0' :: x :: r)
  | s => strSignedDecimal s

/-- `Number(value) || 0` as used by the aggregators: `NaN` and `±0` are
falsy and fall back to 0, every other number — including fractional and
exponent-form values, non-decimal integers and the infinities — passes
through. -/
def jsNumValue (l : List Char) : JSNum :=
  match jsNumber l with
  | .nan => .val 0
  | n => n

/-- One step of the aggregation loop: a decodable caveat whose condition
matches overwrites the accumulator with its numeric value; everything
else leaves it unchanged. -/
def aggStep (cond : List Char) (acc : JSNum) (c : List Char) : JSNum :=
  match decodeCaveat c with
  | some cav => if cav.condition = cond then jsNumValue cav.value else acc
  | none => acc

/-- The shared aggregation loop of `getMaxBandwidthFromMacaroon` and
`getExpirationFromMacaroon`: decode every caveat and keep the numeric
value of the last one whose condition matches. -/
def aggregateCondition (cond : List Char) (cs : List (List Char)) : JSNum :=
  cs.foldl (aggStep cond) (.val 0)

/-- The caveat condition `max_bandwidth`. -/
def MAX_BANDWIDTH_CONDITION : List Char :=
  ['m', 'a', 'x', '_', 'b', 'a', 'n', 'd', 'w', 'i', 'd', 't', 'h']

/-- The caveat condition `expiration`. -/
def EXPIRATION_CONDITION : List Char :=
  ['e', 'x', 'p', 'i', 'r', 'a', 't', 'i', 'o', 'n']

/-- `getMaxBandwidthFromMacaroon(base64Macaroon)` under fuel. -/
def getMaxBandwidthFromMacaroon (fuel : Nat) (s : List Char) : Option JSNum :=
  (extractCaveatsFromMacaroon fuel s).map (aggregateCondition MAX_BANDWIDTH_CONDITION)

/-- `getExpirationFromMacaroon(base64Macaroon)` under fuel. -/
def getExpirationFromMacaroon (fuel : Nat) (s : List Char) : Option JSNum :=
  (extractCaveatsFromMacaroon fuel s).map (aggregateCondition EXPIRATION_CONDITION)

/-- The regex word-character class `\w`. -/
def isWordChar (c : Char) : Bool :=
  ('a' ≤ c ∧ c ≤ 'z') ∨ ('A' ≤ c ∧ c ≤ 'Z') ∨ ('0' ≤ c ∧ c ≤ '9') ∨ c = '_'

/-- The global scan of `/(\w+)="([^"]*)"/g`: at each position, a match
needs a maximal word-character run, then `="`, then characters up to the
next quote; on success scanning resumes after the closing quote, and on
failure it advances one character.  Fuel is the remaining text length
(every step consumes at least one character). -/
def scanPairsGo : Nat → List Char → List (List Char × List Char)
  | 0, _ => []
  | _ + 1, [] => []
  | fuel + 1, c :: rest =>
    if isWordChar c then
      match rest.dropWhile isWordChar with
      | e :: q :: r2 =>
        if e = '=' ∧ q = '"' then
          if (r2.takeWhile (fun x => x ≠ '"')).length < r2.length then
            (c :: rest.takeWhile isWordChar, r2.takeWhile (fun x => x ≠ '"')) ::
              scanPairsGo fuel ((r2.dropWhile (fun x => x ≠ '"')).tail)
          else scanPairsGo fuel rest
        else scanPairsGo fuel rest
      | _ => scanPairsGo fuel rest
    else scanPairsGo fuel rest

/-- All `key="value"` pairs of the challenge text, in scan order. -/
def scanPairs (l : List Char) : List (List Char × List Char) :=
  scanPairsGo l.length l

/-- Lower-case one character, as `toLowerCase` does on ASCII. -/
def lowerChar (c : Char) : Char := c.toLower

/-- Strip the optional case-insensitive `L402` / `LSAT` scheme prefix
followed by whitespace, `/^(?:L402|LSAT)\s+/i`. -/
def stripL402Prefix (h : List Char) : List Char :=
  match h with
  | a :: b :: c :: d :: rest =>
    if (lowerChar a = 'l' ∧
        ((b = '4' ∧ c = '0' ∧ d = '2') ∨
         (lowerChar b = 's' ∧ lowerChar c = 'a' ∧ lowerChar d = 't'))) ∧
       (rest ≠ [] ∧ jsWhitespace rest.headI) then
      rest.dropWhile jsWhitespace
    else h
  | _ => h

/-- The challenge key `macaroon`. -/
def macaroonKey : List Char := ['m', 'a', 'c', 'a', 'r', 'o', 'o', 'n']

/-- The challenge key `invoice`. -/
def invoiceKey : List Char := ['i', 'n', 'v', 'o', 'i', 'c', 'e']

/-- One step of the pair accumulation: a `macaroon` or `invoice` key
(case-folded) overwrites the corresponding accumulator component. -/
def lastPairsStep (acc : List Char × List Char) (p : List Char × List Char) :
    List Char × List Char :=
  let key := p.1.map lowerChar
  if key = macaroonKey then (p.2, acc.2)
  else if key = invoiceKey then (acc.1, p.2)
  else acc

/-- The last-occurrence-wins accumulation of the `macaroon` and
`invoice` values over the scanned pairs (keys case-folded), starting
from the empty string. -/
def lastPairs (ps : List (List Char × List Char)) : List Char × List Char :=
  ps.foldl lastPairsStep ([], [])

/-- The parsed challenge. -/
structure L402Challenge where
  macaroon : List Char
  invoice : List Char
  maxBandwidth : JSNum
  expiry : JSNum
deriving DecidableEq

/-- `parseL402Challenge(header)` under fuel for the macaroon decode.
The outer `none` means the macaroon decode has not finished; `some none`
is the function returning `null` ("no challenge"). -/
def parseL402Challenge (fuel : Nat) (header : List Char) :
    Option (Option L402Challenge) :=
  let challenge := stripL402Prefix header
  let mi := lastPairs (scanPairs challenge)
  if mi.1 = [] ∨ mi.2 = [] then some none
  else
    match getMaxBandwidthFromMacaroon fuel mi.1,
          getExpirationFromMacaroon fuel mi.1 with
    | some bw, some ex => some (some ⟨mi.1, mi.2, bw, ex⟩)
    | _, _ => none

/-- A stored token, `L402Token`. -/
structure L402Token where
  credential : List Char
  maxBandwidth : Nat
  expiry : Option Nat
deriving DecidableEq

/-- The header map of a loader context: the `Authorization` entry this
code writes, plus all other entries, which it never touches. -/
structure HeadersMap where
  authorization : Option (List Char)
  others : List (List Char × List Char)
deriving DecidableEq

/-- The part of `LoaderContext` this code reads and writes: its optional
`headers` object. -/
structure LoaderContext where
  headers : Option HeadersMap
deriving DecidableEq

/-- `applyL402Header(context, token)` at current time `now`
(`Date.now()`), returning the updated context.  `token?.credential`
guards on a present token with a non-empty credential, and
`token.expiry && Date.now() > token.expiry` skips injection only when
`expiry` is present, non-zero (truthy) and in the past. -/
def applyL402Header (now : Nat) (context : LoaderContext)
    (token : Option L402Token) : LoaderContext :=
  match token with
  | none => context
  | some t =>
    if t.credential = [] then context
    else if (match t.expiry with
             | some e => decide (e ≠ 0 ∧ e < now)
             | none => false) then context
    else
      let h := context.headers.getD ⟨none, []⟩
      { headers := some { h with
          authorization := some (['L', '4', '0', '2', ' '] ++ t.credential) } }

/-! ## Spec-side definitions for the varint reader -/

/-- The bytes a varint read consumes from a buffer suffix: everything up
to and including the first byte whose high bit (bit 7) is 0, or the
whole suffix when no such byte occurs before the buffer ends. -/
def consumedList : List Nat → List Nat
  | [] => []
  | b :: r => b :: (if b.testBit 7 then consumedList r else [])

/-- `specSum bs` is the varint value the specification describes: the
sum over the consumed bytes `b i` of `(b i % 128) * 2 ^ (7 * i)`, here
in Horner form. -/
def specSum : List Nat → Nat
  | [] => 0
  | b :: r => b % 128 + 128 * specSum r

/-- The Horner form above agrees with the literal sum of the claim. -/
theorem specSum_eq_sum (l : List Nat) :
    specSum l = ∑ i ∈ Finset.range l.length, l.getD i 0 % 128 * 2 ^ (7 * i) := by
  induction l with
  | nil => simp [specSum]
  | cons b r ih =>
    rw [specSum, ih, List.length_cons, Finset.sum_range_succ']
    simp only [List.getD_cons_succ, List.getD_cons_zero, pow_zero, mul_one,
      Nat.mul_zero, Nat.pow_zero]
    rw [Nat.add_comm, Finset.mul_sum]
    congr 1
    apply Finset.sum_congr rfl
    intro i _
    ring

/-! ## Helper lemmas -/

/-- `byteAt` at a natural position is `getD`. -/
theorem byteAt_natCast (d : List Nat) (p : Nat) : byteAt d (p : Int) = d.getD p 0 := by
  simp only [byteAt, Int.toNat_ofNat]
  split
  · next h =>
    rw [List.get_eq_getElem, List.getD_eq_getElem?_getD,
      List.getElem?_eq_getElem h.2]
    rfl
  · next h =>
    have hlen : d.length ≤ p := by
      by_contra hq
      exact h ⟨Int.natCast_nonneg p, Nat.lt_of_not_le hq⟩
    rw [List.getD_eq_getElem?_getD, List.getElem?_eq_none hlen]
    rfl

/-- A looping `v2Step` state never finishes under any fuel. -/
theorem v2Run_loop (d : List Nat) (s : V2State)
    (hstep : v2Step d s = Sum.inl s) : ∀ n, v2Run d n s = none := by
  intro n
  induction n with
  | zero => rfl
  | succ n ih => rw [v2Run, hstep]; exact ih

/-- The caveat list carried by a step outcome. -/
def v2CaveatsOf : V2State ⊕ List (List Char) → List (List Char)
  | Sum.inl s => s.caveats
  | Sum.inr r => r

/-! ## C8 helper lemmas -/

/-- Or-ing a value below `2 ^ n` with a left shift by `n` is addition:
the two bit ranges are disjoint. -/
theorem lor_shiftLeft_eq_add {a : Nat} (b n : Nat) (h : a < 2 ^ n) :
    a ||| (b <<< n) = a + b <<< n := by
  rw [Nat.shiftLeft_eq, Nat.lor_comm, Nat.mul_comm b (2 ^ n)]
  rw [← Nat.mul_add_lt_is_or h b]
  omega

/-- The loop test `(b & 0x80) === 0` reads bit 7. -/
theorem and128_beq_zero (b : Nat) : (b &&& 128 == 0) = !b.testBit 7 := by
  have h := Nat.and_two_pow b 7
  norm_num at h
  rw [h]
  cases hb : b.testBit 7 <;> simp

/-- The mask `b & 0x7f` is `b % 128`. -/
theorem and127_eq_mod (b : Nat) : b &&& 127 = b % 128 := by
  have h := Nat.and_pow_two_sub_one_eq_mod b 7
  norm_num at h
  exact h

/-- `byteAt` at an in-range natural position, as a cons of the dropped
suffix. -/
theorem drop_eq_getD_cons {d : List Nat} {p : Nat} (hp : p < d.length) :
    d.drop p = d.getD p 0 :: d.drop (p + 1) := by
  rw [List.drop_eq_getElem_cons hp]
  congr 1
  rw [List.getD_eq_getElem?_getD, List.getElem?_eq_getElem hp]
  rfl

/-- Position part of the varint reader: it consumes exactly the bytes of
`consumedList` and returns the offset just after them. -/
theorem readVarintGo_pos (d : List Nat) :
    ∀ n (p : Nat) value shift, n = d.length - p → p ≤ d.length →
      (readVarintGo d n (p : Int) value shift).2 =
        ((p + (consumedList (d.drop p)).length : Nat) : Int) := by
  intro n
  induction n with
  | zero =>
    intro p value shift hn hp
    have hpe : p = d.length := by omega
    rw [readVarintGo, hpe, List.drop_length]
    simp [consumedList]
  | succ n ih =>
    intro p value shift hn hp
    have hplt : p < d.length := by omega
    have hg : (p : Int) < (d.length : Int) := by exact_mod_cast hplt
    simp only [readVarintGo, if_pos hg, byteAt_natCast]
    rw [drop_eq_getD_cons hplt, consumedList, and128_beq_zero]
    cases ht : (d.getD p 0).testBit 7 with
    | false =>
      simp
    | true =>
      simp only [Bool.not_true, Bool.false_eq_true, if_false]
      have hcast : ((p : Int) + 1) = ((p + 1 : Nat) : Int) := by push_cast; ring
      rw [hcast, ih (p + 1) _ _ (by omega) (by omega)]
      simp [List.length_cons]
      omega

/-- Value part of the varint reader, valid while no 32-bit overflow can
occur (at most four consumed bytes in total): the accumulator gains the
spec sum of the consumed bytes, shifted into place. -/
theorem readVarintGo_val (d : List Nat) :
    ∀ n (p : Nat) value k shift, shift = 7 * k → n = d.length - p →
      p ≤ d.length → value < 2 ^ (7 * k) →
      k + (consumedList (d.drop p)).length ≤ 4 →
      (readVarintGo d n (p : Int) value shift).1 =
        value + specSum (consumedList (d.drop p)) * 2 ^ (7 * k) := by
  intro n
  induction n with
  | zero =>
    intro p value k shift hs hn hp hv hk
    have hpe : p = d.length := by omega
    rw [readVarintGo, hpe, List.drop_length]
    simp [consumedList, specSum]
  | succ n ih =>
    intro p value k shift hs hn hp hv hk
    have hplt : p < d.length := by omega
    have hg : (p : Int) < (d.length : Int) := by exact_mod_cast hplt
    simp only [readVarintGo, if_pos hg, byteAt_natCast]
    have hcons : consumedList (d.drop p) =
        d.getD p 0 :: (if (d.getD p 0).testBit 7 then consumedList (d.drop (p + 1)) else []) := by
      rw [drop_eq_getD_cons hplt, consumedList]
    have hklen : k ≤ 3 := by
      rw [hcons] at hk
      simp [List.length_cons] at hk
      omega
    have hshift : shift % 32 = 7 * k := by
      rw [hs]
      omega
    have hshl : ((d.getD p 0 &&& 127) <<< (shift % 32)) % 4294967296 =
        (d.getD p 0 % 128) <<< (7 * k) := by
      rw [hshift, and127_eq_mod, Nat.shiftLeft_eq]
      apply Nat.mod_eq_of_lt
      have hb : d.getD p 0 % 128 < 128 := Nat.mod_lt _ (by norm_num)
      have hps : (2 : Nat) ^ (7 * k) ≤ 2 ^ 21 :=
        Nat.pow_le_pow_right (by norm_num) (by omega)
      nlinarith [hb, hps]
    rw [hshl, lor_shiftLeft_eq_add _ _ hv, and128_beq_zero]
    have hpow : (2 : Nat) ^ (7 * (k + 1)) = 128 * 2 ^ (7 * k) := by
      rw [show 7 * (k + 1) = 7 * k + 7 by ring, pow_add]
      ring
    cases ht : (d.getD p 0).testBit 7 with
    | false =>
      rw [if_pos (by simp)]
      rw [hcons, ht]
      simp only [Bool.false_eq_true, if_false]
      rw [specSum, specSum]
      rw [Nat.shiftLeft_eq]
      ring
    | true =>
      rw [if_neg (by simp)]
      have hcast : ((p : Int) + 1) = ((p + 1 : Nat) : Int) := by push_cast; ring
      have hrec := ih (p + 1) (value + (d.getD p 0 % 128) <<< (7 * k)) (k + 1)
        (shift + 7) (by omega) (by omega) (by omega)
        (by
          rw [Nat.shiftLeft_eq]
          have hb : d.getD p 0 % 128 * 2 ^ (7 * k) ≤ 127 * 2 ^ (7 * k) :=
            Nat.mul_le_mul_right _ (by omega)
          omega)
        (by
          rw [hcons, ht] at hk
          simp [List.length_cons] at hk
          omega)
      rw [hcast, hrec, hcons, ht]
      simp only [if_true]
      rw [specSum]
      rw [hpow, Nat.shiftLeft_eq]
      ring

/-- `specSum` is bounded by `128 ^ length`. -/
theorem specSum_lt (l : List Nat) : specSum l < 128 ^ l.length := by
  induction l with
  | nil => simp [specSum]
  | cons b r ih =>
    rw [specSum, List.length_cons, pow_succ]
    have hb : b % 128 < 128 := Nat.mod_lt _ (by norm_num)
    have : 128 * specSum r ≤ 128 * (128 ^ r.length - 1) := by
      have := ih
      omega
    have hpos : 1 ≤ (128 : Nat) ^ r.length := Nat.one_le_pow _ _ (by norm_num)
    calc b % 128 + 128 * specSum r ≤ 127 + 128 * (128 ^ r.length - 1) := by omega
      _ < 128 ^ r.length * 128 := by
        rw [Nat.mul_comm (128 ^ r.length) 128]
        omega

/-- `toInt32` is the identity below `2 ^ 31`. -/
theorem toInt32_of_lt {u : Nat} (h : u < 2147483648) : toInt32 u = (u : Int) := by
  unfold toInt32
  rw [Nat.mod_eq_of_lt (by omega)]
  rw [if_pos h]

/-! ## C8 -/

/-- C8 (amended): for every buffer `d` and offset `p < d.length`,
`readVarint` consumes exactly the bytes from `p` up to and including the
first byte with high bit 0 (or until the buffer ends), and returns as
new position the offset just after them; and whenever at most four
bytes are consumed — so that the 32-bit shifts of the JS `|`/`<<`
operators cannot overflow — the returned value is exactly the claimed
sum of `(b i % 128) * 2 ^ (7 * i)` over the consumed bytes.  (The
amendment restricts the value formula to at-most-four-byte reads: a
fifth byte is shifted by 28 and wraps at 32 bits, see the
counterexample; the position clause is unrestricted.) -/
theorem readVarint_spec (d : List Nat) (p : Nat) (hp : p < d.length) :
    (readVarint d (p : Int)).2 = ((p + (consumedList (d.drop p)).length : Nat) : Int) ∧
    ((consumedList (d.drop p)).length ≤ 4 →
      (readVarint d (p : Int)).1 = (specSum (consumedList (d.drop p)) : Int)) := by
  have hfuel : (((d.length : Int) - (p : Int))).toNat = d.length - p := by omega
  constructor
  · rw [readVarint]
    simp only [hfuel]
    exact readVarintGo_pos d (d.length - p) p 0 0 rfl (le_of_lt hp)
  · intro h4
    rw [readVarint]
    simp only [hfuel]
    have hval := readVarintGo_val d (d.length - p) p 0 0 0 (by norm_num) rfl
      (le_of_lt hp) (by norm_num) (by omega)
    rw [hval]
    have hlt : specSum (consumedList (d.drop p)) < 2147483648 := by
      have h1 := specSum_lt (consumedList (d.drop p))
      have h2 : (128 : Nat) ^ (consumedList (d.drop p)).length ≤ 128 ^ 4 :=
        Nat.pow_le_pow_right (by norm_num) h4
      norm_num at h2
      omega
    rw [show (0 + specSum (consumedList (d.drop p)) * 2 ^ (7 * 0)) =
        specSum (consumedList (d.drop p)) by ring]
    exact toInt32_of_lt hlt

/-- C8 witness: reading the two-byte varint `AC 02` from offset 0
consumes both bytes and yields 300 at offset 2. -/
theorem readVarint_spec_witness :
    (readVarint [172, 2] 0).2 = 2 ∧ (readVarint [172, 2] 0).1 = 300 := by
  have h := readVarint_spec [172, 2] 0 (by decide)
  exact ⟨h.1.trans (by decide), (h.2 (by decide)).trans (by decide)⟩

/-- C8 counterexample: on the five-byte varint `80 80 80 80 10` the
claimed sum is `16 * 2 ^ 28 = 2 ^ 32`, but the JS shift of the fifth
byte wraps at 32 bits, so `readVarint` returns value 0 (the position,
5, is still as described). -/
theorem readVarint_overflow :
    (readVarint [128, 128, 128, 128, 16] 0).1 = 0 ∧
    (readVarint [128, 128, 128, 128, 16] 0).2 = 5 ∧
    specSum (consumedList [128, 128, 128, 128, 16]) = 4294967296 ∧
    (readVarint [128, 128, 128, 128, 16] 0).1 ≠
      (specSum (consumedList [128, 128, 128, 128, 16]) : Int) := by
  decide

/-! ## C3 -/

/-- A fold over caveats none of which decode to the given condition
leaves the accumulator unchanged. -/
theorem aggStep_foldl_const (cond : List Char) (l : List (List Char)) (x : JSNum)
    (h : ∀ c ∈ l, ∀ cav, decodeCaveat c = some cav → cav.condition ≠ cond) :
    l.foldl (aggStep cond) x = x := by
  induction l generalizing x with
  | nil => rfl
  | cons c r ih =>
    have hstep : aggStep cond x c = x := by
      unfold aggStep
      cases hdec : decodeCaveat c with
      | none => rfl
      | some cav =>
        show (if cav.condition = cond then jsNumValue cav.value else x) = x
        exact if_neg (h c (List.mem_cons_self c r) cav hdec)
    rw [List.foldl_cons, hstep]
    exact ih x (fun c' hc' => h c' (List.mem_cons_of_mem c hc'))

/-- C3: `getMaxBandwidthFromMacaroon` keeps the numeric value of the
last `max_bandwidth` caveat — for every macaroon whose decoded caveat
list splits as `l1 ++ c :: l2` where `c` decodes to condition
`max_bandwidth` and nothing in `l2` decodes to that condition, the
result is `Number(value) || 0` of the value of `c` (its JS numeric
value — decimal, fractional, exponent, non-decimal or infinite — with
non-numeric text and ±0 falling back to 0), earlier occurrences such as
`max_bandwidth=500` before a final `max_bandwidth=250` being
overwritten; and when no caveat decodes to `max_bandwidth` the result
is 0. -/
theorem getMaxBandwidth_last_wins :
    (∀ fuel s l1 l2 c cav, extractCaveatsFromMacaroon fuel s = some (l1 ++ c :: l2) →
      decodeCaveat c = some cav → cav.condition = MAX_BANDWIDTH_CONDITION →
      (∀ c' ∈ l2, ∀ cav', decodeCaveat c' = some cav' →
        cav'.condition ≠ MAX_BANDWIDTH_CONDITION) →
      getMaxBandwidthFromMacaroon fuel s = some (jsNumValue cav.value)) ∧
    (∀ fuel s cs, extractCaveatsFromMacaroon fuel s = some cs →
      (∀ c ∈ cs, ∀ cav, decodeCaveat c = some cav →
        cav.condition ≠ MAX_BANDWIDTH_CONDITION) →
      getMaxBandwidthFromMacaroon fuel s = some (JSNum.val 0)) := by
  constructor
  · intro fuel s l1 l2 c cav hex hdec hcond hlast
    rw [getMaxBandwidthFromMacaroon, hex, Option.map_some']
    congr 1
    rw [aggregateCondition, List.foldl_append, List.foldl_cons]
    have hstep : aggStep MAX_BANDWIDTH_CONDITION
        (List.foldl (aggStep MAX_BANDWIDTH_CONDITION) (JSNum.val 0) l1) c
        = jsNumValue cav.value := by
      unfold aggStep
      rw [hdec]
      exact if_pos hcond
    rw [hstep]
    exact aggStep_foldl_const _ _ _ hlast
  · intro fuel s cs hex hnone
    rw [getMaxBandwidthFromMacaroon, hex, Option.map_some']
    congr 1
    exact aggStep_foldl_const _ _ _ hnone

set_option maxRecDepth 8000 in
/-- C3 witness: a v1 macaroon carrying `max_bandwidth=500` and then
`max_bandwidth=250` aggregates to 250. -/
theorem getMaxBandwidth_last_wins_witness :
    getMaxBandwidthFromMacaroon 1
      ("MDAxYWNpZCBtYXhfYmFuZHdpZHRoPTUwMAowMDFhY2lkIG1heF9iYW5kd2lkdGg9MjUwCg==".data)
      = some (JSNum.val 250) := by
  have h := getMaxBandwidth_last_wins.1 1
    ("MDAxYWNpZCBtYXhfYmFuZHdpZHRoPTUwMAowMDFhY2lkIG1heF9iYW5kd2lkdGg9MjUwCg==".data)
    ["max_bandwidth=500".data] [] ("max_bandwidth=250".data)
    ⟨MAX_BANDWIDTH_CONDITION, '=', ['2', '5', '0']⟩
    (by decide) (by decide) rfl (by simp)
  exact h.trans (by decide)

/-! ## C7 -/

/-- `v1Go` does not depend on the fuel once the fuel dominates the
remaining buffer length: each iteration advances the position by the
declared packet length, which the guard forces to at least 9. -/
theorem v1Go_fuel (d : List Nat) :
    ∀ n m pos, d.length - pos ≤ n → d.length - pos ≤ m →
      v1Go d n pos = v1Go d m pos := by
  intro n
  induction n with
  | zero =>
    intro m pos hn _
    have hpos : d.length ≤ pos := by omega
    cases m with
    | zero => rfl
    | succ m =>
      simp only [v1Go]
      rw [if_neg (by omega : ¬ pos + 8 < d.length)]
  | succ n ih =>
    intro m pos hn hm
    by_cases hguard : pos + 8 < d.length
    · obtain ⟨m', rfl⟩ : ∃ m', m = m' + 1 := ⟨m - 1, by omega⟩
      simp only [v1Go, if_pos hguard]
      split
      · rfl
      · rename_i L hhex
        split
        · rfl
        · rename_i hstop
          congr 1
          exact ih m' (pos + L.toNat) (by omega) (by omega)
    · cases m with
      | zero =>
        simp only [v1Go]
        rw [if_neg hguard]
      | succ m =>
        simp only [v1Go]
        rw [if_neg hguard, if_neg hguard]

/-- C7: one iteration of the v1 packet loop.  At any position with at
least 9 bytes left, the loop stops — returning the caveats collected so
far and capturing nothing from the offending packet — exactly when the
4-character length field parses to `NaN`, or to a value below 9, or to
a value overrunning the buffer; otherwise it captures the packet's
`cid` payload (if any) and advances by exactly the declared length. -/
theorem extractCaveatsV1From_step (d : List Nat) (pos : Nat)
    (hpos : pos + 8 < d.length) :
    (parseHex16 (bytesToString d (pos : Int) 4) = none →
      extractCaveatsV1From d pos = []) ∧
    (∀ L : Int, parseHex16 (bytesToString d (pos : Int) 4) = some L →
      (L < 9 ∨ (d.length : Int) < (pos : Int) + L) →
      extractCaveatsV1From d pos = []) ∧
    (∀ L : Int, parseHex16 (bytesToString d (pos : Int) 4) = some L →
      9 ≤ L → (pos : Int) + L ≤ (d.length : Int) →
      extractCaveatsV1From d pos =
        v1Packet d pos L ++ extractCaveatsV1From d (pos + L.toNat)) := by
  refine ⟨?_, ?_, ?_⟩
  · intro hhex
    simp only [extractCaveatsV1From, v1Go, if_pos hpos, hhex]
  · intro L hhex hstop
    simp only [extractCaveatsV1From, v1Go, if_pos hpos, hhex]
    rw [if_pos hstop]
  · intro L hhex h9 hfit
    simp only [extractCaveatsV1From, v1Go, if_pos hpos, hhex]
    rw [if_neg (by omega)]
    congr 1
    exact v1Go_fuel d d.length (d.length + 1) (pos + L.toNat) (by omega) (by omega)

/-- C7 witness: on the single-packet v1 buffer `001acid a=1\n` (here 12
bytes, declared length `0x00c`), the loop captures the packet and
advances by exactly 12. -/
theorem extractCaveatsV1From_step_witness :
    extractCaveatsV1From [48, 48, 48, 99, 99, 105, 100, 32, 97, 61, 49, 10] 0 =
      v1Packet [48, 48, 48, 99, 99, 105, 100, 32, 97, 61, 49, 10] 0 12 ++
        extractCaveatsV1From [48, 48, 48, 99, 99, 105, 100, 32, 97, 61, 49, 10] 12 :=
  (extractCaveatsV1From_step [48, 48, 48, 99, 99, 105, 100, 32, 97, 61, 49, 10] 0
    (by decide)).2.2 12 (by decide) (by decide) (by decide)

/-! ## C2 -/

/-- C2 (amended): `extractCaveatsFromMacaroon` never raises and fails
closed — any base64 decode failure yields the empty caveat list, a
decoded buffer of fewer than 2 bytes yields the empty list, and
`getMaxBandwidthFromMacaroon "not-valid-base64!!"` returns 0 rather
than throwing.  (The amendment drops "total": the v2 field loop runs
forever on some inputs, see the counterexample, so the results are
stated for every fuel.) -/
theorem extractCaveatsFromMacaroon_failClosed :
    (∀ fuel s, base64ToBytes s = none →
      extractCaveatsFromMacaroon fuel s = some []) ∧
    (∀ fuel s d, base64ToBytes s = some d → d.length < 2 →
      extractCaveatsFromMacaroon fuel s = some []) ∧
    (∀ fuel, getMaxBandwidthFromMacaroon fuel ("not-valid-base64!!".data)
      = some (JSNum.val 0)) := by
  refine ⟨?_, ?_, ?_⟩
  · intro fuel s h
    simp [extractCaveatsFromMacaroon, h]
  · intro fuel s d h hlen
    simp [extractCaveatsFromMacaroon, h, hlen]
  · intro fuel
    rfl

/-- C2 witness: `"!!"` is not base64 and decodes to no caveats, and the
concrete example of the claim returns 0. -/
theorem extractCaveatsFromMacaroon_failClosed_witness :
    base64ToBytes ("!!".data) = none ∧
    extractCaveatsFromMacaroon 0 ("!!".data) = some [] ∧
    getMaxBandwidthFromMacaroon 0 ("not-valid-base64!!".data) = some (JSNum.val 0) :=
  ⟨by decide, extractCaveatsFromMacaroon_failClosed.1 0 _ (by decide),
    extractCaveatsFromMacaroon_failClosed.2.2 0⟩

/-- C2 counterexample: `extractCaveatsFromMacaroon` is not total.  On
`"AgH6////Dw=="` (bytes `02 01 FA FF FF FF 0F`) the v2 loop reads field
type 1, then the five-byte varint `FA FF FF FF 0F`, whose 32-bit value
is −6; the bounds check `pos + fieldLen > data.length` passes (1 > 7 is
false) and `pos += fieldLen` moves the position from 7 back to 1, the
state it started in — the loop never terminates, so no fuel produces a
result. -/
theorem extractCaveatsFromMacaroon_diverges :
    ¬ ∃ fuel r, extractCaveatsFromMacaroon fuel ("AgH6////Dw==".data) = some r := by
  have hstep : v2Step [2, 1, 250, 255, 255, 255, 15] ⟨1, true, []⟩ =
      Sum.inl ⟨1, true, []⟩ := by decide
  have hall : ∀ n, extractCaveatsFromMacaroon n ("AgH6////Dw==".data) = none := by
    intro n
    have hre : extractCaveatsFromMacaroon n ("AgH6////Dw==".data)
        = v2Run [2, 1, 250, 255, 255, 255, 15] n ⟨1, true, []⟩ := rfl
    rw [hre, v2Run_loop _ _ hstep]
  rintro ⟨f, r, h⟩
  rw [hall f] at h
  exact Option.noConfusion h

/-! ## C4 -/

/-- C4: the v2 decoder follows the claimed state machine.  For every
buffer and every loop state: an EOS field (type 0) moves to the
caveat-section state; a signature field (type 6) stops decoding at once,
returning the caveats already collected, with nothing captured or
consumed; while in the header state (before the first EOS) no step
changes the caveat list; a step that does change the caveat list is an
identifier field (type 2) seen after the first EOS, and it appends
exactly that field's payload; and buffer exhaustion stops decoding. -/
theorem v2Step_state_machine (d : List Nat) (s : V2State) :
    ((readVarint d s.pos).1 = 0 → s.pos < (d.length : Int) →
      v2Step d s = Sum.inl ⟨(readVarint d s.pos).2, false, s.caveats⟩) ∧
    ((readVarint d s.pos).1 = 6 → v2Step d s = Sum.inr s.caveats) ∧
    (s.isFirstSection = true → v2CaveatsOf (v2Step d s) = s.caveats) ∧
    (v2CaveatsOf (v2Step d s) ≠ s.caveats →
      s.isFirstSection = false ∧ (readVarint d s.pos).1 = 2 ∧
      v2CaveatsOf (v2Step d s) = s.caveats ++
        [bytesToString d (readVarint d (readVarint d s.pos).2).2
          (readVarint d (readVarint d s.pos).2).1]) ∧
    (¬ s.pos < (d.length : Int) → v2Step d s = Sum.inr s.caveats) := by
  by_cases hpos : s.pos < (d.length : Int)
  · have hcap : v2CaveatsOf (v2Step d s) ≠ s.caveats →
        s.isFirstSection = false ∧ (readVarint d s.pos).1 = 2 ∧
        v2CaveatsOf (v2Step d s) = s.caveats ++
          [bytesToString d (readVarint d (readVarint d s.pos).2).2
            (readVarint d (readVarint d s.pos).2).1] := by
      intro hne
      simp only [v2Step, if_pos hpos] at hne ⊢
      by_cases h0 : (readVarint d s.pos).1 = 0
      · rw [if_pos h0] at hne
        exact absurd rfl hne
      · rw [if_neg h0] at hne ⊢
        by_cases hbr : (d.length : Int) <
            (readVarint d (readVarint d s.pos).2).2 + (readVarint d (readVarint d s.pos).2).1
        · rw [if_pos hbr] at hne
          exact absurd rfl hne
        · rw [if_neg hbr] at hne ⊢
          by_cases hid : (readVarint d s.pos).1 = 2 ∧ s.isFirstSection = false
          · have h6 : ¬ (readVarint d s.pos).1 = 6 := by simp [hid.1]
            rw [if_pos hid, if_neg h6]
            exact ⟨hid.2, hid.1, rfl⟩
          · rw [if_neg hid] at hne
            by_cases h6 : (readVarint d s.pos).1 = 6
            · rw [if_pos h6] at hne
              exact absurd rfl hne
            · rw [if_neg h6] at hne
              exact absurd rfl hne
    refine ⟨?_, ?_, ?_, hcap, ?_⟩
    · intro h0 _
      simp [v2Step, hpos, h0]
    · intro h6
      simp [v2Step, hpos, h6]
    · intro hf
      by_contra hne
      have hfalse := (hcap hne).1
      rw [hf] at hfalse
      exact Bool.noConfusion hfalse
    · intro h
      exact absurd hpos h
  · have hru : readVarint d s.pos = (0, s.pos) := by
      have hz : ((d.length : Int) - s.pos).toNat = 0 := by omega
      simp [readVarint, hz, readVarintGo, toInt32]
    refine ⟨?_, ?_, ?_, ?_, ?_⟩
    · intro _ hp
      exact absurd hp hpos
    · intro h6
      rw [hru] at h6
      simp at h6
    · intro _
      simp [v2Step, hpos, v2CaveatsOf]
    · intro hne
      simp [v2Step, hpos, v2CaveatsOf] at hne
    · intro _
      simp [v2Step, hpos]

/-- C4 witness: on the buffer `02 06 01 09`, whose first field (read
from position 1) has type 6, the step stops immediately with the
caveats collected so far. -/
theorem v2Step_state_machine_witness :
    v2Step [2, 6, 1, 9] ⟨1, true, []⟩ = Sum.inr [] :=
  (v2Step_state_machine [2, 6, 1, 9] ⟨1, true, []⟩).2.1 (by decide)

/-! ## C1: valid macaroon-v2 encodings -/

/-- Canonical LEB128 varint encoding, with fuel dominating the value. -/
def encodeVarintGo : Nat → Nat → List Nat
  | 0, v => [v]
  | fuel + 1, v =>
    if v < 128 then [v] else (v % 128 + 128) :: encodeVarintGo fuel (v / 128)

/-- Canonical LEB128 varint encoding of a value. -/
def encodeVarint (v : Nat) : List Nat := encodeVarintGo v v

/-- The encoder ignores its fuel once the fuel dominates the value. -/
theorem encodeVarintGo_fuel :
    ∀ n m v, v ≤ n → v ≤ m → encodeVarintGo n v = encodeVarintGo m v := by
  intro n
  induction n with
  | zero =>
    intro m v hn _
    have hv0 : v = 0 := by omega
    subst hv0
    cases m with
    | zero => rfl
    | succ m => simp [encodeVarintGo]
  | succ n ih =>
    intro m v hn hm
    by_cases hv : v < 128
    · cases m with
      | zero =>
        have hv0 : v = 0 := by omega
        subst hv0
        simp [encodeVarintGo]
      | succ m =>
        simp only [encodeVarintGo]
        rw [if_pos hv, if_pos hv]
    · obtain ⟨m', rfl⟩ : ∃ m', m = m' + 1 := ⟨m - 1, by omega⟩
      simp only [encodeVarintGo]
      rw [if_neg hv, if_neg hv]
      congr 1
      exact ih m' (v / 128) (by omega) (by omega)

/-- Encoding a small value. -/
theorem encodeVarint_small {v : Nat} (h : v < 128) : encodeVarint v = [v] := by
  cases v with
  | zero => rfl
  | succ v => rw [encodeVarint, encodeVarintGo, if_pos h]

/-- Encoding a large value: low seven bits with the continuation bit,
then the rest. -/
theorem encodeVarint_large {v : Nat} (h : 128 ≤ v) :
    encodeVarint v = (v % 128 + 128) :: encodeVarint (v / 128) := by
  obtain ⟨v', rfl⟩ : ∃ v', v = v' + 1 := ⟨v - 1, by omega⟩
  rw [encodeVarint, encodeVarintGo, if_neg (by omega)]
  congr 1
  exact encodeVarintGo_fuel v' ((v' + 1) / 128) ((v' + 1) / 128) (by omega) (le_refl _)

/-- One field or section terminator of the v2 wire format. -/
inductive V2Item where
  | eos : V2Item
  | field : Nat → List Nat → V2Item

/-- The bytes of one item: EOS is the single byte 0, a field is its type
varint, its length varint and its payload. -/
def encodeItem : V2Item → List Nat
  | .eos => [0]
  | .field t payload => encodeVarint t ++ (encodeVarint payload.length ++ payload)

/-- The bytes of an item sequence. -/
def encodeItems : List V2Item → List Nat
  | [] => []
  | it :: r => encodeItem it ++ encodeItems r

/-- Well-formedness of one item: a field's type is non-zero (types are
1, 2, 4 or 6 in real macaroons) and both the type and the payload
length stay below `2 ^ 31` (they are real byte counts), and payload
entries are bytes. -/
def itemOK : V2Item → Prop
  | .eos => True
  | .field t p => t ≠ 0 ∧ t < 2 ^ 31 ∧ p.length < 2 ^ 31 ∧ ∀ b ∈ p, b < 256

/-- A valid macaroon-v2 encoding: the version byte 2 followed by encoded
items (header fields, EOS terminators, caveat identifier fields and the
signature field, as produced by the js-macaroon exporter). -/
def ValidV2 (d : List Nat) : Prop :=
  ∃ items, d = 2 :: encodeItems items ∧ ∀ it ∈ items, itemOK it

/-- The caveat strings the v2 walk collects over an item sequence,
starting in header state when `f` is true: identifier payloads of
non-header sections, up to the first signature field. -/
def runItemsRel : Bool → List V2Item → List (List Char)
  | _, [] => []
  | _, .eos :: r => runItemsRel false r
  | f, .field t payload :: r =>
    if t = 6 then []
    else (if t = 2 ∧ f = false then [payload.map jsChar] else []) ++ runItemsRel f r

/-- Reading at or past the end of the buffer returns 0 at the same
position. -/
theorem readVarint_oor (d : List Nat) (p : Int) (h : (d.length : Int) ≤ p) :
    readVarint d p = (0, p) := by
  have hz : ((d.length : Int) - p).toNat = 0 := by omega
  simp [readVarint, hz, readVarintGo, toInt32]

/-- The head element under a known `drop`. -/
theorem getD_of_drop {d : List Nat} {p : Nat} {x : Nat} {l : List Nat}
    (h : d.drop p = x :: l) : d.getD p 0 = x := by
  have hh := congrArg List.head? h
  rw [List.head?_drop] at hh
  rw [List.getD_eq_getElem?_getD, hh]
  rfl

/-- The tail of a known `drop`. -/
theorem drop_succ_of_drop {d : List Nat} {p : Nat} {x : Nat} {l : List Nat}
    (h : d.drop p = x :: l) : d.drop (p + 1) = l := by
  have : d.drop (p + 1) = (d.drop p).drop 1 := by
    rw [List.drop_drop]
  rw [this, h]
  rfl

/-- The varint reader on a canonical encoding embedded at position `p`:
it consumes exactly the encoding's bytes and accumulates the encoded
value at the current shift, with no 32-bit overflow while
`v * 2 ^ shift < 2 ^ 31`. -/
theorem readVarintGo_encode (d : List Nat) :
    ∀ v (p : Nat) value shift (suf : List Nat),
      d.drop p = encodeVarint v ++ suf →
      value < 2 ^ shift → v * 2 ^ shift < 2 ^ 31 →
      readVarintGo d (d.length - p) (p : Int) value shift =
        (value + v * 2 ^ shift, ((p + (encodeVarint v).length : Nat) : Int)) := by
  intro v
  induction v using Nat.strong_induction_on with
  | _ v ih =>
    intro p value shift suf hdrop hval hbound
    by_cases hv : v < 128
    · rw [encodeVarint_small hv] at hdrop ⊢
      have hget : d.getD p 0 = v := getD_of_drop (by simpa using hdrop)
      have hlen : d.length - p = List.length (v :: suf) := by
        have hc := congrArg List.length hdrop
        rw [List.length_drop] at hc
        simpa using hc
      have hplt : p < d.length := by
        simp at hlen
        omega
      obtain ⟨fl, hfl⟩ : ∃ fl, d.length - p = fl + 1 := ⟨d.length - p - 1, by omega⟩
      have hg : (p : Int) < (d.length : Int) := by exact_mod_cast hplt
      rw [hfl]
      simp only [readVarintGo, if_pos hg, byteAt_natCast, hget]
      have hmask : v &&& 127 = v := by
        rw [and127_eq_mod]
        exact Nat.mod_eq_of_lt hv
      have hshl : (v <<< (shift % 32)) % 4294967296 = v <<< shift := by
        cases Nat.eq_zero_or_pos v with
        | inl h0 => subst h0; simp
        | inr h1 =>
          have hs31 : shift < 31 := by
            by_contra hs
            have h31 : (2 : Nat) ^ 31 ≤ 2 ^ shift :=
              Nat.pow_le_pow_right (by norm_num) (by omega)
            have hle : 2 ^ shift ≤ v * 2 ^ shift := Nat.le_mul_of_pos_left _ h1
            omega
          rw [show shift % 32 = shift from Nat.mod_eq_of_lt (by omega)]
          rw [Nat.shiftLeft_eq]
          apply Nat.mod_eq_of_lt
          omega
      rw [hmask, hshl, lor_shiftLeft_eq_add v shift hval, and128_beq_zero,
        Nat.testBit_lt_two_pow hv]
      simp only [Bool.not_false, if_true]
      rw [Nat.shiftLeft_eq]
      have hpos : ((p : Int) + 1) = ((p + List.length [v] : Nat) : Int) := by
        simp
      rw [hpos]
    · rw [encodeVarint_large (by omega)] at hdrop ⊢
      have hget : d.getD p 0 = v % 128 + 128 := getD_of_drop (by simpa using hdrop)
      have hdrop1 : d.drop (p + 1) = encodeVarint (v / 128) ++ suf :=
        drop_succ_of_drop (by simpa using hdrop)
      have hlen : d.length - p = 1 + (encodeVarint (v / 128) ++ suf).length := by
        have hc := congrArg List.length hdrop
        rw [List.length_drop] at hc
        simpa [Nat.add_comm] using hc
      have hplt : p < d.length := by omega
      obtain ⟨fl, hfl⟩ : ∃ fl, d.length - p = fl + 1 := ⟨d.length - p - 1, by omega⟩
      have hg : (p : Int) < (d.length : Int) := by exact_mod_cast hplt
      rw [hfl]
      simp only [readVarintGo, if_pos hg, byteAt_natCast, hget]
      have hs24 : shift < 24 := by
        by_contra hs
        have h31 : (2 : Nat) ^ 31 ≤ 2 ^ 7 * 2 ^ shift := by
          rw [← pow_add]
          exact Nat.pow_le_pow_right (by norm_num) (by omega)
        have hle : 2 ^ 7 * 2 ^ shift ≤ v * 2 ^ shift :=
          Nat.mul_le_mul_right _ (by omega)
        omega
      have hmask : (v % 128 + 128) &&& 127 = v % 128 := by
        rw [and127_eq_mod]
        omega
      have hshl : ((v % 128) <<< (shift % 32)) % 4294967296 = (v % 128) <<< shift := by
        rw [Nat.mod_eq_of_lt (show shift < 32 by omega), Nat.shiftLeft_eq]
        apply Nat.mod_eq_of_lt
        have hb : v % 128 < 128 := Nat.mod_lt _ (by norm_num)
        have hp : (2 : Nat) ^ shift ≤ 2 ^ 23 :=
          Nat.pow_le_pow_right (by norm_num) (by omega)
        nlinarith
      have htest : ((v % 128 + 128) &&& 128 == 0) = false := by
        rw [and128_beq_zero]
        have hdiv : (v % 128 + 128) / 2 ^ 7 % 2 = 1 := by
          norm_num
        rw [Nat.testBit_to_div_mod, hdiv]
        rfl
      rw [hmask, hshl, lor_shiftLeft_eq_add (v % 128) shift hval, htest]
      rw [if_neg (show ¬ (false = true) by simp)]
      have hcast : ((p : Int) + 1) = ((p + 1 : Nat) : Int) := by push_cast; ring
      have hfl' : fl = d.length - (p + 1) := by omega
      rw [Nat.shiftLeft_eq, hcast, hfl']
      have hrec := ih (v / 128) (by omega) (p + 1) (value + v % 128 * 2 ^ shift)
        (shift + 7) suf hdrop1
        (by
          have hb : v % 128 * 2 ^ shift ≤ 127 * 2 ^ shift :=
            Nat.mul_le_mul_right _ (by omega)
          have hpow : (2 : Nat) ^ (shift + 7) = 128 * 2 ^ shift := by
            rw [pow_add]
            ring
          omega)
        (by
          have h1 : v / 128 * 2 ^ (shift + 7) ≤ v * 2 ^ shift := by
            rw [pow_add]
            calc v / 128 * (2 ^ shift * 2 ^ 7) = v / 128 * 128 * 2 ^ shift := by
                  ring
              _ ≤ v * 2 ^ shift :=
                  Nat.mul_le_mul_right _ (Nat.div_mul_le_self v 128)
          omega)
      rw [hrec]
      have hval' : value + v % 128 * 2 ^ shift + v / 128 * 2 ^ (shift + 7) =
          value + v * 2 ^ shift := by
        have hpow : (2 : Nat) ^ (shift + 7) = 2 ^ shift * 128 := by
          rw [pow_add]
          ring
        rw [hpow]
        have hv128 : v % 128 + 128 * (v / 128) = v := Nat.mod_add_div v 128
        calc value + v % 128 * 2 ^ shift + v / 128 * (2 ^ shift * 128)
            = value + (v % 128 + 128 * (v / 128)) * 2 ^ shift := by ring
          _ = value + v * 2 ^ shift := by rw [hv128]
      rw [hval']
      have hlen' : (p + 1 + (encodeVarint (v / 128)).length : Nat) =
          (p + ((v % 128 + 128) :: encodeVarint (v / 128)).length : Nat) := by
        simp
        omega
      rw [hlen']

/-- The varint reader at the start of an embedded canonical encoding. -/
theorem readVarint_encode (pre suf : List Nat) (v : Nat) (hv : v < 2 ^ 31) :
    readVarint (pre ++ (encodeVarint v ++ suf)) (pre.length : Int) =
      ((v : Int), ((pre.length + (encodeVarint v).length : Nat) : Int)) := by
  have hdrop : (pre ++ (encodeVarint v ++ suf)).drop pre.length =
      encodeVarint v ++ suf := List.drop_left pre _
  have hlen : pre.length ≤ (pre ++ (encodeVarint v ++ suf)).length := by
    simp
  rw [readVarint]
  have hfuel : (((pre ++ (encodeVarint v ++ suf)).length : Int) - (pre.length : Int)).toNat =
      (pre ++ (encodeVarint v ++ suf)).length - pre.length := by
    omega
  simp only [hfuel]
  rw [readVarintGo_encode (pre ++ (encodeVarint v ++ suf)) v pre.length 0 0 suf hdrop
    (by norm_num) (by simpa using hv)]
  rw [toInt32_of_lt (by simpa using hv)]
  simp

/-- The varint reader on a strict prefix of an embedded canonical
encoding that ends the buffer: it accumulates the partial digits and
stops at the end of the buffer. -/
theorem readVarintGo_encode_trunc (d : List Nat) :
    ∀ v (p : Nat) value shift j,
      d.drop p = (encodeVarint v).take j →
      j < (encodeVarint v).length → p ≤ d.length →
      value < 2 ^ shift → v * 2 ^ shift < 2 ^ 31 →
      readVarintGo d (d.length - p) (p : Int) value shift =
        (value + (v % 128 ^ j) * 2 ^ shift, ((d.length : Nat) : Int)) := by
  intro v
  induction v using Nat.strong_induction_on with
  | _ v ih =>
    intro p value shift j hdrop hj hp hval hbound
    cases j with
    | zero =>
      rw [List.take_zero] at hdrop
      have hz : d.length - p = 0 := by
        have hc := congrArg List.length hdrop
        rw [List.length_drop] at hc
        simpa using hc
      rw [hz, readVarintGo]
      have hpe : p = d.length := by omega
      rw [hpe]
      simp [Nat.mod_one]
    | succ j =>
      have hv128 : 128 ≤ v := by
        by_contra hvs
        rw [encodeVarint_small (by omega)] at hj
        simp at hj
      rw [encodeVarint_large hv128] at hdrop hj
      rw [List.take_succ_cons] at hdrop
      have hget : d.getD p 0 = v % 128 + 128 := getD_of_drop hdrop
      have hdrop1 : d.drop (p + 1) = (encodeVarint (v / 128)).take j :=
        drop_succ_of_drop hdrop
      have hlen : d.length - p = 1 + ((encodeVarint (v / 128)).take j).length := by
        have hc := congrArg List.length hdrop
        rw [List.length_drop] at hc
        simpa [Nat.add_comm] using hc
      have hplt : p < d.length := by omega
      obtain ⟨fl, hfl⟩ : ∃ fl, d.length - p = fl + 1 := ⟨d.length - p - 1, by omega⟩
      have hg : (p : Int) < (d.length : Int) := by exact_mod_cast hplt
      rw [hfl]
      simp only [readVarintGo, if_pos hg, byteAt_natCast, hget]
      have hs24 : shift < 24 := by
        by_contra hs
        have h31 : (2 : Nat) ^ 31 ≤ 2 ^ 7 * 2 ^ shift := by
          rw [← pow_add]
          exact Nat.pow_le_pow_right (by norm_num) (by omega)
        have hle : 2 ^ 7 * 2 ^ shift ≤ v * 2 ^ shift :=
          Nat.mul_le_mul_right _ (by omega)
        omega
      have hmask : (v % 128 + 128) &&& 127 = v % 128 := by
        rw [and127_eq_mod]
        omega
      have hshl : ((v % 128) <<< (shift % 32)) % 4294967296 = (v % 128) <<< shift := by
        rw [show shift % 32 = shift from Nat.mod_eq_of_lt (by omega), Nat.shiftLeft_eq]
        apply Nat.mod_eq_of_lt
        have hb : v % 128 < 128 := Nat.mod_lt _ (by norm_num)
        have hq : (2 : Nat) ^ shift ≤ 2 ^ 23 :=
          Nat.pow_le_pow_right (by norm_num) (by omega)
        nlinarith
      have htest : ((v % 128 + 128) &&& 128 == 0) = false := by
        rw [and128_beq_zero]
        have hdiv : (v % 128 + 128) / 2 ^ 7 % 2 = 1 := by
          norm_num
        rw [Nat.testBit_to_div_mod, hdiv]
        rfl
      rw [hmask, hshl, lor_shiftLeft_eq_add (v % 128) shift hval, htest]
      rw [if_neg (show ¬ (false = true) by simp)]
      have hcast : ((p : Int) + 1) = ((p + 1 : Nat) : Int) := by push_cast; ring
      have hfl' : fl = d.length - (p + 1) := by omega
      rw [Nat.shiftLeft_eq, hcast, hfl']
      have hjlt : j < (encodeVarint (v / 128)).length := by
        simp at hj
        omega
      have hrec := ih (v / 128) (by omega) (p + 1) (value + v % 128 * 2 ^ shift)
        (shift + 7) j hdrop1 hjlt (by omega)
        (by
          have hb : v % 128 * 2 ^ shift ≤ 127 * 2 ^ shift :=
            Nat.mul_le_mul_right _ (by omega)
          have hpow : (2 : Nat) ^ (shift + 7) = 128 * 2 ^ shift := by
            rw [pow_add]
            ring
          omega)
        (by
          have h1 : v / 128 * 2 ^ (shift + 7) ≤ v * 2 ^ shift := by
            rw [pow_add]
            calc v / 128 * (2 ^ shift * 2 ^ 7) = v / 128 * 128 * 2 ^ shift := by
                  ring
              _ ≤ v * 2 ^ shift :=
                  Nat.mul_le_mul_right _ (Nat.div_mul_le_self v 128)
          omega)
      rw [hrec]
      have hval' : value + v % 128 * 2 ^ shift + v / 128 % 128 ^ j * 2 ^ (shift + 7) =
          value + v % 128 ^ (j + 1) * 2 ^ shift := by
        have hpow : (2 : Nat) ^ (shift + 7) = 2 ^ shift * 128 := by
          rw [pow_add]
          ring
        have hmm : v % 128 ^ (j + 1) = v % 128 + 128 * (v / 128 % 128 ^ j) := by
          rw [pow_succ', Nat.mod_mul]
        rw [hpow, hmm]
        ring
      rw [hval']

/-- The varint reader on a truncated embedded encoding at the end of the
buffer. -/
theorem readVarint_encode_trunc (pre : List Nat) (v j : Nat)
    (hj : j < (encodeVarint v).length) (hv : v < 2 ^ 31) :
    readVarint (pre ++ (encodeVarint v).take j) (pre.length : Int) =
      (((v % 128 ^ j : Nat) : Int),
        (((pre ++ (encodeVarint v).take j).length : Nat) : Int)) := by
  have hdrop : (pre ++ (encodeVarint v).take j).drop pre.length =
      (encodeVarint v).take j := List.drop_left pre _
  have hlen : pre.length ≤ (pre ++ (encodeVarint v).take j).length := by
    simp
  rw [readVarint]
  have hfuel : (((pre ++ (encodeVarint v).take j).length : Int) - (pre.length : Int)).toNat =
      (pre ++ (encodeVarint v).take j).length - pre.length := by
    omega
  simp only [hfuel]
  rw [readVarintGo_encode_trunc (pre ++ (encodeVarint v).take j) v pre.length 0 0 j hdrop
    hj hlen (by norm_num) (by simpa using hv)]
  have hb : v % 128 ^ j ≤ v := Nat.mod_le v _
  rw [toInt32_of_lt (by simp; omega)]
  simp

/-- `bytesToString` of an embedded payload is the payload, one character
per byte. -/
theorem bytesToString_embed (pre payload suf : List Nat) :
    bytesToString (pre ++ (payload ++ suf)) (pre.length : Int) (payload.length : Int) =
      payload.map jsChar := by
  rw [bytesToString]
  have htn : ((payload.length : Int)).toNat = payload.length := by simp
  rw [htn]
  apply List.ext_getElem
  · simp
  · intro n h1 h2
    simp only [List.getElem_map, List.getElem_range]
    have hcast : ((pre.length : Int) + Int.ofNat n) = ((pre.length + n : Nat) : Int) := by
      simp only [Int.ofNat_eq_coe]
      push_cast
      ring
    rw [hcast, byteAt_natCast]
    congr 1
    have hn : n < payload.length := by simpa using h1
    rw [List.getD_eq_getElem?_getD, List.getElem?_append_right (by omega),
      Nat.add_sub_cancel_left, List.getElem?_append_left (by simpa using hn)]
    rw [List.getElem?_eq_getElem hn]
    simp

/-- Stepping `v2Run` through a continuing step. -/
theorem v2Run_inl {d : List Nat} {s s' : V2State} (n : Nat)
    (h : v2Step d s = Sum.inl s') : v2Run d (n + 1) s = v2Run d n s' := by
  rw [v2Run, h]

/-- Stepping `v2Run` through a terminating step. -/
theorem v2Run_inr {d : List Nat} {s : V2State} {r : List (List Char)} (n : Nat)
    (h : v2Step d s = Sum.inr r) : v2Run d (n + 1) s = some r := by
  rw [v2Run, h]

/-- More fuel never changes a finished run. -/
theorem v2Run_mono {d : List Nat} :
    ∀ {n : Nat} {s : V2State} {r : List (List Char)} {m : Nat},
      v2Run d n s = some r → n ≤ m → v2Run d m s = some r := by
  intro n
  induction n with
  | zero =>
    intro s r m h _
    exact Option.noConfusion h
  | succ n ih =>
    intro s r m h hm
    obtain ⟨m', rfl⟩ : ∃ m', m = m' + 1 := ⟨m - 1, by omega⟩
    rw [v2Run] at h
    cases hstep : v2Step d s with
    | inr r' =>
      rw [hstep] at h
      rw [v2Run_inr m' hstep]
      exact h
    | inl s' =>
      rw [hstep] at h
      rw [v2Run_inl m' hstep]
      exact ih h (by omega)

/-- A step at or past the end of the buffer exits the loop. -/
theorem v2Step_oor (d : List Nat) (s : V2State) (h : (d.length : Int) ≤ s.pos) :
    v2Step d s = Sum.inr s.caveats := by
  rw [v2Step, if_neg (by omega)]

/-- The encoding of a varint is never empty. -/
theorem encodeVarint_length_pos (v : Nat) : 0 < (encodeVarint v).length := by
  by_cases hv : v < 128
  · rw [encodeVarint_small hv]
    simp
  · rw [encodeVarint_large (by omega)]
    simp

/-- Processing an EOS byte moves the walk past it and out of the header
state. -/
theorem v2Step_eos (pre suf : List Nat) (f : Bool) (a : List (List Char)) :
    v2Step (pre ++ (0 :: suf)) ⟨(pre.length : Int), f, a⟩ =
      Sum.inl ⟨((pre.length + 1 : Nat) : Int), false, a⟩ := by
  have he : (encodeVarint 0 ++ suf) = 0 :: suf := by
    rw [encodeVarint_small (by norm_num)]
    rfl
  have hr : readVarint (pre ++ (0 :: suf)) (pre.length : Int) =
      ((0 : Int), ((pre.length + 1 : Nat) : Int)) := by
    have h := readVarint_encode pre suf 0 (by norm_num)
    rw [he] at h
    rw [h]
    rw [encodeVarint_small (by norm_num)]
    simp
  have hg : ((pre.length : Nat) : Int) < (((pre ++ (0 :: suf)).length : Nat) : Int) := by
    simp
  simp only [v2Step, if_pos hg, hr]
  rw [if_pos trivial]

/-- One loop step finishing with a read whose new position is the end of
the buffer: the walk terminates within two steps, with at most one
spurious empty caveat. -/
theorem v2Run_endRead (d : List Nat) (p : Int) (f : Bool) (a : List (List Char))
    (w : Nat) (hp : p < (d.length : Int))
    (hr : readVarint d p = ((w : Int), (d.length : Int))) :
    ∃ r, v2Run d 2 ⟨p, f, a⟩ = some r ∧ (r = a ∨ r = a ++ [[]]) := by
  by_cases hw0 : w = 0
  · subst hw0
    have hstep : v2Step d ⟨p, f, a⟩ = Sum.inl ⟨(d.length : Int), false, a⟩ := by
      simp only [v2Step, if_pos hp, hr]
      simp
    refine ⟨a, ?_, Or.inl rfl⟩
    rw [v2Run_inl 1 hstep, v2Run_inr 0 (v2Step_oor d _ (by simp))]
  · have hoor : readVarint d (d.length : Int) = (0, (d.length : Int)) :=
      readVarint_oor d _ (le_refl _)
    have hw0' : ¬ ((w : Int) = 0) := by exact_mod_cast hw0
    have hbs : bytesToString d (d.length : Int) 0 = [] := rfl
    have hchk : ¬ ((d.length : Int) < (d.length : Int) + (0 : Int)) := by omega
    by_cases hw6 : w = 6
    · subst hw6
      have hstep : v2Step d ⟨p, f, a⟩ = Sum.inr a := by
        simp only [v2Step, if_pos hp, hr, hoor]
        rw [if_neg (show ¬ (((6 : Nat) : Int) = 0) by norm_num), if_neg hchk,
          if_neg (show ¬ (((6 : Nat) : Int) = 2 ∧ f = false) by simp),
          if_pos (show ((6 : Nat) : Int) = 6 by norm_num)]
      exact ⟨a, by rw [v2Run_inr 1 hstep], Or.inl rfl⟩
    · have hw6' : ¬ ((w : Int) = 6) := by exact_mod_cast hw6
      by_cases hw2 : w = 2 ∧ f = false
      · obtain ⟨hw2', hf⟩ := hw2
        subst hw2'
        subst hf
        have hstep : v2Step d ⟨p, false, a⟩ =
            Sum.inl ⟨(d.length : Int) + 0, false, a ++ [[]]⟩ := by
          simp only [v2Step, if_pos hp, hr, hoor, hbs]
          rw [if_neg (show ¬ (((2 : Nat) : Int) = 0) by norm_num), if_neg hchk,
            if_pos (show ((2 : Nat) : Int) = 2 ∧ True from ⟨by norm_num, trivial⟩),
            if_neg (show ¬ (((2 : Nat) : Int) = 6) by norm_num)]
        refine ⟨a ++ [[]], ?_, Or.inr rfl⟩
        rw [v2Run_inl 1 hstep, v2Run_inr 0 (v2Step_oor d _ (by simp))]
      · have hw2' : ¬ ((w : Int) = 2 ∧ f = false) := by
          intro hc
          exact hw2 ⟨by exact_mod_cast hc.1, hc.2⟩
        have hstep : v2Step d ⟨p, f, a⟩ = Sum.inl ⟨(d.length : Int) + 0, f, a⟩ := by
          simp only [v2Step, if_pos hp, hr, hoor]
          rw [if_neg hw0', if_neg hchk, if_neg hw2', if_neg hw6']
        refine ⟨a, ?_, Or.inl rfl⟩
        rw [v2Run_inl 1 hstep, v2Run_inr 0 (v2Step_oor d _ (by simp))]

/-- One loop step whose length read ends at the end of the buffer, the
field type `t` having been read completely: the walk terminates within
two steps, with at most one spurious empty caveat. -/
theorem v2Run_lenAtEnd (d : List Nat) (p q : Int) (t lam : Nat) (f : Bool)
    (a : List (List Char)) (hp : p < (d.length : Int)) (ht0 : t ≠ 0)
    (hr1 : readVarint d p = ((t : Int), q))
    (hr2 : readVarint d q = ((lam : Int), (d.length : Int))) :
    ∃ r, v2Run d 2 ⟨p, f, a⟩ = some r ∧ (r = a ∨ r = a ++ [[]]) := by
  have ht0' : ¬ ((t : Int) = 0) := by exact_mod_cast ht0
  by_cases hlam : lam = 0
  · subst hlam
    have hbs : bytesToString d (d.length : Int) 0 = [] := rfl
    have hchk : ¬ ((d.length : Int) < (d.length : Int) + (0 : Int)) := by omega
    by_cases ht6 : t = 6
    · subst ht6
      have hstep : v2Step d ⟨p, f, a⟩ = Sum.inr a := by
        simp only [v2Step, if_pos hp, hr1, hr2, Nat.cast_zero]
        rw [if_neg (show ¬ (((6 : Nat) : Int) = 0) by norm_num), if_neg hchk,
          if_neg (show ¬ (((6 : Nat) : Int) = 2 ∧ f = false) by simp),
          if_pos (show ((6 : Nat) : Int) = 6 by norm_num)]
      exact ⟨a, by rw [v2Run_inr 1 hstep], Or.inl rfl⟩
    · have ht6' : ¬ ((t : Int) = 6) := by exact_mod_cast ht6
      by_cases ht2 : t = 2 ∧ f = false
      · obtain ⟨ht2', hf⟩ := ht2
        subst ht2'
        subst hf
        have hstep : v2Step d ⟨p, false, a⟩ =
            Sum.inl ⟨(d.length : Int) + 0, false, a ++ [[]]⟩ := by
          simp only [v2Step, if_pos hp, hr1, hr2, Nat.cast_zero, hbs]
          rw [if_neg (show ¬ (((2 : Nat) : Int) = 0) by norm_num), if_neg hchk,
            if_pos (show ((2 : Nat) : Int) = 2 ∧ True from ⟨by norm_num, trivial⟩),
            if_neg (show ¬ (((2 : Nat) : Int) = 6) by norm_num)]
        refine ⟨a ++ [[]], ?_, Or.inr rfl⟩
        rw [v2Run_inl 1 hstep, v2Run_inr 0 (v2Step_oor d _ (by simp))]
      · have ht2' : ¬ ((t : Int) = 2 ∧ f = false) := by
          intro hc
          exact ht2 ⟨by exact_mod_cast hc.1, hc.2⟩
        have hstep : v2Step d ⟨p, f, a⟩ = Sum.inl ⟨(d.length : Int) + 0, f, a⟩ := by
          simp only [v2Step, if_pos hp, hr1, hr2, Nat.cast_zero]
          rw [if_neg ht0', if_neg hchk, if_neg ht2', if_neg ht6']
        refine ⟨a, ?_, Or.inl rfl⟩
        rw [v2Run_inl 1 hstep, v2Run_inr 0 (v2Step_oor d _ (by simp))]
  · have hstep : v2Step d ⟨p, f, a⟩ = Sum.inr a := by
      simp only [v2Step, if_pos hp, hr1, hr2]
      rw [if_neg ht0',
        if_pos (show (d.length : Int) < (d.length : Int) + ((lam : Nat) : Int) by
          have hl : (0 : Int) < ((lam : Nat) : Int) := by
            exact_mod_cast Nat.pos_of_ne_zero hlam
          omega)]
    exact ⟨a, by rw [v2Run_inr 1 hstep], Or.inl rfl⟩

/-- A complete field item at the walk position: the two varints and the
payload are read; a signature field stops the walk, any other field
advances past the item, identifier fields outside the header section
contributing their payload as a caveat. -/
theorem v2Step_field (pre payload suf : List Nat) (t : Nat) (f : Bool)
    (a : List (List Char)) (ht0 : t ≠ 0) (ht : t < 2 ^ 31)
    (hpl : payload.length < 2 ^ 31) :
    v2Step (pre ++ (encodeItem (.field t payload) ++ suf))
        ⟨(pre.length : Int), f, a⟩ =
      if t = 6 then Sum.inr a
      else
        Sum.inl ⟨((pre.length + (encodeItem (.field t payload)).length : Nat) : Int), f,
          a ++ (if t = 2 ∧ f = false then [payload.map jsChar] else [])⟩ := by
  have hitem : (encodeItem (.field t payload)).length
      = (encodeVarint t).length + ((encodeVarint payload.length).length + payload.length) := by
    simp [encodeItem]
  have hr1 : readVarint (pre ++ (encodeItem (.field t payload) ++ suf)) (pre.length : Int) =
      ((t : Int), ((pre.length + (encodeVarint t).length : Nat) : Int)) := by
    have h := readVarint_encode pre ((encodeVarint payload.length ++ payload) ++ suf) t ht
    rw [show pre ++ (encodeVarint t ++ ((encodeVarint payload.length ++ payload) ++ suf)) =
        pre ++ (encodeItem (.field t payload) ++ suf) by simp [encodeItem]] at h
    exact h
  have hr2 : readVarint (pre ++ (encodeItem (.field t payload) ++ suf))
      ((pre.length + (encodeVarint t).length : Nat) : Int) =
      ((payload.length : Int),
        ((pre.length + (encodeVarint t).length + (encodeVarint payload.length).length
          : Nat) : Int)) := by
    have h := readVarint_encode (pre ++ encodeVarint t) (payload ++ suf) payload.length hpl
    rw [show (pre ++ encodeVarint t) ++ (encodeVarint payload.length ++ (payload ++ suf)) =
        pre ++ (encodeItem (.field t payload) ++ suf) by simp [encodeItem]] at h
    simp only [List.length_append] at h
    exact h
  have hbs : bytesToString (pre ++ (encodeItem (.field t payload) ++ suf))
      ((pre.length + (encodeVarint t).length + (encodeVarint payload.length).length
        : Nat) : Int)
      ((payload.length : Nat) : Int) = payload.map jsChar := by
    have h := bytesToString_embed ((pre ++ encodeVarint t) ++ encodeVarint payload.length)
      payload suf
    rw [show ((pre ++ encodeVarint t) ++ encodeVarint payload.length) ++ (payload ++ suf) =
        pre ++ (encodeItem (.field t payload) ++ suf) by simp [encodeItem]] at h
    simp only [List.length_append] at h
    exact h
  have hlen : (pre ++ (encodeItem (.field t payload) ++ suf)).length
      = pre.length + ((encodeItem (.field t payload)).length + suf.length) := by
    simp
  have hg : ((pre.length : Nat) : Int) <
      (((pre ++ (encodeItem (.field t payload) ++ suf)).length : Nat) : Int) := by
    have h1 := encodeVarint_length_pos t
    have h2 : pre.length < (pre ++ (encodeItem (.field t payload) ++ suf)).length := by
      rw [hlen, hitem]
      omega
    exact_mod_cast h2
  have hchk : ¬ ((((pre ++ (encodeItem (.field t payload) ++ suf)).length : Nat) : Int) <
      ((pre.length + (encodeVarint t).length + (encodeVarint payload.length).length
        : Nat) : Int) + ((payload.length : Nat) : Int)) := by
    have h2 : pre.length + (encodeVarint t).length + (encodeVarint payload.length).length
        + payload.length ≤ (pre ++ (encodeItem (.field t payload) ++ suf)).length := by
      rw [hlen, hitem]
      omega
    push_cast at h2 ⊢
    omega
  have hpos : ((pre.length + (encodeVarint t).length + (encodeVarint payload.length).length
        : Nat) : Int) + ((payload.length : Nat) : Int)
      = ((pre.length + (encodeItem (.field t payload)).length : Nat) : Int) := by
    rw [hitem]
    push_cast
    ring
  simp only [v2Step, if_pos hg, hr1, hr2, hbs]
  rw [if_neg (show ¬ ((t : Int) = 0) from by exact_mod_cast ht0), if_neg hchk]
  by_cases h6 : t = 6
  · subst h6
    rw [if_pos (show ((6 : Nat) : Int) = 6 by norm_num),
      if_neg (show ¬ (((6 : Nat) : Int) = 2 ∧ f = false) by simp),
      if_pos (show (6 : Nat) = 6 from rfl)]
  · rw [if_neg (show ¬ ((t : Int) = 6) from by exact_mod_cast h6), if_neg h6, hpos]
    by_cases h2 : t = 2 ∧ f = false
    · rw [if_pos (show (t : Int) = 2 ∧ f = false from ⟨by exact_mod_cast h2.1, h2.2⟩),
        if_pos h2]
    · rw [if_neg (show ¬ ((t : Int) = 2 ∧ f = false) from
          fun hc => h2 ⟨by exact_mod_cast hc.1, hc.2⟩),
        if_neg h2, List.append_nil]

/-- A step whose field data would run past the end of the buffer exits
the loop with the caveats collected so far. -/
theorem v2Step_overrun (d : List Nat) (p q q2 : Int) (t lam : Nat) (f : Bool)
    (a : List (List Char)) (hp : p < (d.length : Int)) (ht0 : t ≠ 0)
    (hr1 : readVarint d p = ((t : Int), q))
    (hr2 : readVarint d q = ((lam : Int), q2))
    (hover : (d.length : Int) < q2 + (lam : Int)) :
    v2Step d ⟨p, f, a⟩ = Sum.inr a := by
  simp only [v2Step, if_pos hp, hr1, hr2]
  rw [if_neg (show ¬ ((t : Int) = 0) from by exact_mod_cast ht0), if_pos hover]

/-- Truncating a single well-formed item strictly inside its bytes: the
walk on the truncated buffer ends within two steps, with the collected
caveats unchanged or extended by one spurious empty string. -/
theorem v2Run_truncItem (pre : List Nat) (it : V2Item) (m : Nat) (f : Bool)
    (a : List (List Char)) (hok : itemOK it) (hm : m < (encodeItem it).length) :
    ∃ r, v2Run (pre ++ (encodeItem it).take m) 2 ⟨(pre.length : Int), f, a⟩ = some r ∧
      (r = a ∨ r = a ++ [[]]) := by
  rcases Nat.eq_zero_or_pos m with hm0 | hmpos
  · subst hm0
    refine ⟨a, ?_, Or.inl rfl⟩
    rw [List.take_zero, List.append_nil]
    exact v2Run_inr 1 (v2Step_oor pre ⟨(pre.length : Int), f, a⟩ (by simp))
  · cases it with
    | eos =>
      exfalso
      simp [encodeItem] at hm
      omega
    | field t payload =>
      obtain ⟨ht0, ht, hpl, -⟩ := hok
      have hT := encodeVarint_length_pos t
      have hEL := encodeVarint_length_pos payload.length
      have hilen : (encodeItem (V2Item.field t payload)).length
          = (encodeVarint t).length
            + ((encodeVarint payload.length).length + payload.length) := by
        simp [encodeItem]
      by_cases hmT : m ≤ (encodeVarint t).length
      · -- the cut lies inside the type varint, or exactly after it
        have htk : (encodeItem (V2Item.field t payload)).take m = (encodeVarint t).take m := by
          rw [show encodeItem (V2Item.field t payload)
              = encodeVarint t ++ (encodeVarint payload.length ++ payload) from rfl,
            List.take_append_eq_append_take, Nat.sub_eq_zero_of_le hmT,
            List.take_zero, List.append_nil]
        rw [htk]
        have hp : ((pre.length : Nat) : Int) <
            (((pre ++ (encodeVarint t).take m).length : Nat) : Int) := by
          have h2 : pre.length < (pre ++ (encodeVarint t).take m).length := by
            simp [List.length_take]
            omega
          exact_mod_cast h2
        rcases Nat.lt_or_ge m (encodeVarint t).length with hlt | hge
        · exact v2Run_endRead _ _ f a (t % 128 ^ m) hp (readVarint_encode_trunc pre t m hlt ht)
        · have hmeq : m = (encodeVarint t).length := le_antisymm hmT hge
          subst hmeq
          rw [List.take_length] at hp ⊢
          have hr : readVarint (pre ++ encodeVarint t) (pre.length : Int) =
              ((t : Int), (((pre ++ encodeVarint t).length : Nat) : Int)) := by
            have h := readVarint_encode pre [] t ht
            rw [List.append_nil] at h
            rw [h]
            simp
          exact v2Run_endRead _ _ f a t hp hr
      · push_neg at hmT
        have htk : (encodeItem (V2Item.field t payload)).take m =
            encodeVarint t
              ++ (encodeVarint payload.length ++ payload).take
                (m - (encodeVarint t).length) := by
          rw [show encodeItem (V2Item.field t payload)
              = encodeVarint t ++ (encodeVarint payload.length ++ payload) from rfl,
            List.take_append_eq_append_take, List.take_of_length_le (by omega)]
        rw [htk]
        have hpos2 : (pre ++ encodeVarint t).length = pre.length + (encodeVarint t).length := by
          simp
        by_cases hmEL : m - (encodeVarint t).length ≤ (encodeVarint payload.length).length
        · -- the cut lies inside the length varint, or exactly after it
          rcases Nat.lt_or_ge (m - (encodeVarint t).length)
              (encodeVarint payload.length).length with hlt | hge
          · have htk2 : (encodeVarint payload.length ++ payload).take
                (m - (encodeVarint t).length)
                = (encodeVarint payload.length).take (m - (encodeVarint t).length) := by
              rw [List.take_append_eq_append_take, Nat.sub_eq_zero_of_le (le_of_lt hlt),
                List.take_zero, List.append_nil]
            rw [htk2]
            have hr1 := readVarint_encode pre
              ((encodeVarint payload.length).take (m - (encodeVarint t).length)) t ht
            have hr2 := readVarint_encode_trunc (pre ++ encodeVarint t) payload.length
              (m - (encodeVarint t).length) hlt hpl
            rw [List.append_assoc, hpos2] at hr2
            have hp : ((pre.length : Nat) : Int) < (((pre ++ (encodeVarint t ++
                (encodeVarint payload.length).take (m - (encodeVarint t).length))).length
                  : Nat) : Int) := by
              have h2 : pre.length < (pre ++ (encodeVarint t ++
                  (encodeVarint payload.length).take (m - (encodeVarint t).length))).length := by
                simp [List.length_take]
                omega
              exact_mod_cast h2
            exact v2Run_lenAtEnd _ _ _ t
              (payload.length % 128 ^ (m - (encodeVarint t).length)) f a hp ht0 hr1 hr2
          · have hmeq : m - (encodeVarint t).length = (encodeVarint payload.length).length :=
              le_antisymm hmEL hge
            rw [hmeq]
            have htk2 : (encodeVarint payload.length ++ payload).take
                (encodeVarint payload.length).length = encodeVarint payload.length := by
              rw [List.take_append_eq_append_take, List.take_length, Nat.sub_self,
                List.take_zero, List.append_nil]
            rw [htk2]
            have hr1 := readVarint_encode pre (encodeVarint payload.length) t ht
            have hr2 : readVarint (pre ++ (encodeVarint t ++ encodeVarint payload.length))
                ((pre.length + (encodeVarint t).length : Nat) : Int) =
                ((payload.length : Int),
                  (((pre ++ (encodeVarint t ++ encodeVarint payload.length)).length
                    : Nat) : Int)) := by
              have h := readVarint_encode (pre ++ encodeVarint t) [] payload.length hpl
              rw [List.append_nil, List.append_assoc] at h
              rw [show (pre ++ encodeVarint t).length + (encodeVarint payload.length).length
                  = (pre ++ (encodeVarint t ++ encodeVarint payload.length)).length from by
                simp
                omega] at h
              rw [hpos2] at h
              exact h
            have hp : ((pre.length : Nat) : Int) <
                (((pre ++ (encodeVarint t ++ encodeVarint payload.length)).length
                  : Nat) : Int) := by
              have h2 : pre.length <
                  (pre ++ (encodeVarint t ++ encodeVarint payload.length)).length := by
                simp
                omega
              exact_mod_cast h2
            exact v2Run_lenAtEnd _ _ _ t payload.length f a hp ht0 hr1 hr2
        · -- the cut lies inside the payload: the bounds check fires
          push_neg at hmEL
          have hk : m - (encodeVarint t).length - (encodeVarint payload.length).length
              < payload.length := by
            omega
          have htk2 : (encodeVarint payload.length ++ payload).take
              (m - (encodeVarint t).length)
              = encodeVarint payload.length
                ++ payload.take
                  (m - (encodeVarint t).length - (encodeVarint payload.length).length) := by
            rw [List.take_append_eq_append_take, List.take_of_length_le (by omega)]
          rw [htk2]
          have hr1 := readVarint_encode pre (encodeVarint payload.length
            ++ payload.take (m - (encodeVarint t).length
              - (encodeVarint payload.length).length)) t ht
          have hr2 : readVarint (pre ++ (encodeVarint t ++ (encodeVarint payload.length
              ++ payload.take (m - (encodeVarint t).length
                - (encodeVarint payload.length).length))))
              ((pre.length + (encodeVarint t).length : Nat) : Int) =
              ((payload.length : Int),
                ((pre.length + (encodeVarint t).length
                  + (encodeVarint payload.length).length : Nat) : Int)) := by
            have h := readVarint_encode (pre ++ encodeVarint t)
              (payload.take (m - (encodeVarint t).length
                - (encodeVarint payload.length).length)) payload.length hpl
            rw [List.append_assoc] at h
            simp only [List.length_append] at h
            exact h
          have hdlen : (pre ++ (encodeVarint t ++ (encodeVarint payload.length
              ++ payload.take (m - (encodeVarint t).length
                - (encodeVarint payload.length).length)))).length
              = pre.length + (encodeVarint t).length + (encodeVarint payload.length).length
                + (m - (encodeVarint t).length - (encodeVarint payload.length).length) := by
            simp [List.length_take]
            omega
          have hp : ((pre.length : Nat) : Int) < (((pre ++ (encodeVarint t
              ++ (encodeVarint payload.length ++ payload.take (m - (encodeVarint t).length
                - (encodeVarint payload.length).length)))).length : Nat) : Int) := by
            have h2 : pre.length < (pre ++ (encodeVarint t ++ (encodeVarint payload.length
                ++ payload.take (m - (encodeVarint t).length
                  - (encodeVarint payload.length).length)))).length := by
              rw [hdlen]
              omega
            exact_mod_cast h2
          have hover : (((pre ++ (encodeVarint t ++ (encodeVarint payload.length
              ++ payload.take (m - (encodeVarint t).length
                - (encodeVarint payload.length).length)))).length : Nat) : Int) <
              ((pre.length + (encodeVarint t).length
                + (encodeVarint payload.length).length : Nat) : Int)
                + ((payload.length : Nat) : Int) := by
            rw [hdlen]
            push_cast
            omega
          refine ⟨a, ?_, Or.inl rfl⟩
          exact v2Run_inr 1 (v2Step_overrun _ _ _ _ t payload.length f a hp ht0 hr1 hr2 hover)

/-- Prefixes are preserved by appending the same list on the left. -/
theorem isPrefix_append_left {α : Type} (l : List α) {l₁ l₂ : List α}
    (h : l₁ <+: l₂) : l ++ l₁ <+: l ++ l₂ := by
  obtain ⟨s, rfl⟩ := h
  exact ⟨s, by simp⟩

/-- Running the v2 walk over a truncated well-formed item sequence: for
some fuel the walk terminates, collecting a prefix of the caveats of the
full sequence, possibly followed by one spurious empty string. -/
theorem v2Trunc_run (items : List V2Item) :
    ∀ (pre : List Nat) (m : Nat) (f : Bool) (a : List (List Char)),
      (∀ it ∈ items, itemOK it) → m ≤ (encodeItems items).length →
      ∃ n r, v2Run (pre ++ (encodeItems items).take m) n ⟨(pre.length : Int), f, a⟩ = some r ∧
        ∃ c, r = a ++ c ∧
          (c <+: runItemsRel f items ∨
            ∃ c', c = c' ++ [[]] ∧ c' <+: runItemsRel f items) := by
  induction items with
  | nil =>
    intro pre m f a _ hm
    have hm0 : m = 0 := by
      simp [encodeItems] at hm
      omega
    subst hm0
    refine ⟨1, a, ?_, [], by simp, Or.inl List.nil_prefix⟩
    rw [show (encodeItems ([] : List V2Item)).take 0 = [] from rfl, List.append_nil]
    exact v2Run_inr 0 (v2Step_oor pre _ (by simp))
  | cons it rest ih =>
    intro pre m f a hok hm
    have hokit : itemOK it := hok it (by simp)
    have hokrest : ∀ x ∈ rest, itemOK x := fun x hx => hok x (by simp [hx])
    by_cases hlt : m < (encodeItem it).length
    · have htk : (encodeItems (it :: rest)).take m = (encodeItem it).take m := by
        rw [show encodeItems (it :: rest) = encodeItem it ++ encodeItems rest from rfl,
          List.take_append_eq_append_take, Nat.sub_eq_zero_of_le (le_of_lt hlt),
          List.take_zero, List.append_nil]
      rw [htk]
      obtain ⟨r, hrun, hr⟩ := v2Run_truncItem pre it m f a hokit hlt
      refine ⟨2, r, hrun, ?_⟩
      rcases hr with h | h
      · exact ⟨[], by simp [h], Or.inl List.nil_prefix⟩
      · exact ⟨[[]], h, Or.inr ⟨[], by simp, List.nil_prefix⟩⟩
    · push_neg at hlt
      have htk : (encodeItems (it :: rest)).take m =
          encodeItem it ++ (encodeItems rest).take (m - (encodeItem it).length) := by
        rw [show encodeItems (it :: rest) = encodeItem it ++ encodeItems rest from rfl,
          List.take_append_eq_append_take, List.take_of_length_le hlt]
      rw [htk]
      have hm' : m - (encodeItem it).length ≤ (encodeItems rest).length := by
        have hl : (encodeItems (it :: rest)).length
            = (encodeItem it).length + (encodeItems rest).length := by
          rw [show encodeItems (it :: rest) = encodeItem it ++ encodeItems rest from rfl,
            List.length_append]
        omega
      cases it with
      | eos =>
        have hbuf : encodeItem V2Item.eos
              ++ (encodeItems rest).take (m - (encodeItem V2Item.eos).length)
            = 0 :: (encodeItems rest).take (m - (encodeItem V2Item.eos).length) := rfl
        rw [hbuf]
        have hstep := v2Step_eos pre
          ((encodeItems rest).take (m - (encodeItem V2Item.eos).length)) f a
        obtain ⟨n, r, hrun, hc⟩ := ih (pre ++ [0]) (m - (encodeItem V2Item.eos).length)
          false a hokrest hm'
        rw [List.append_assoc, List.singleton_append,
          show ((pre ++ [0] : List Nat).length) = pre.length + 1 from by simp] at hrun
        refine ⟨n + 1, r, ?_, ?_⟩
        · rw [v2Run_inl n hstep]
          exact hrun
        · rw [show runItemsRel f (V2Item.eos :: rest) = runItemsRel false rest from rfl]
          exact hc
      | field t payload =>
        obtain ⟨ht0, ht, hpl, -⟩ := hokit
        have hstep := v2Step_field pre payload
          ((encodeItems rest).take (m - (encodeItem (V2Item.field t payload)).length))
          t f a ht0 ht hpl
        by_cases h6 : t = 6
        · subst h6
          rw [if_pos rfl] at hstep
          refine ⟨1, a, v2Run_inr 0 hstep, [], by simp, Or.inl ?_⟩
          rw [show runItemsRel f (V2Item.field 6 payload :: rest) = [] from rfl]
        · rw [if_neg h6] at hstep
          obtain ⟨n, r, hrun, c₀, hrc, hpref⟩ := ih
            (pre ++ encodeItem (V2Item.field t payload))
            (m - (encodeItem (V2Item.field t payload)).length)
            f (a ++ (if t = 2 ∧ f = false then [payload.map jsChar] else []))
            hokrest hm'
          rw [List.append_assoc,
            show ((pre ++ encodeItem (V2Item.field t payload)).length)
              = pre.length + (encodeItem (V2Item.field t payload)).length from by
                simp] at hrun
          refine ⟨n + 1, r, ?_, ?_⟩
          · rw [v2Run_inl n hstep]
            exact hrun
          · refine ⟨(if t = 2 ∧ f = false then [payload.map jsChar] else []) ++ c₀,
              by rw [hrc, List.append_assoc], ?_⟩
            have hrel : runItemsRel f (V2Item.field t payload :: rest)
                = (if t = 2 ∧ f = false then [payload.map jsChar] else [])
                  ++ runItemsRel f rest := by
              simp only [runItemsRel]
              rw [if_neg h6]
            rw [hrel]
            rcases hpref with hp0 | ⟨c', hc', hp0⟩
            · exact Or.inl (isPrefix_append_left _ hp0)
            · refine Or.inr ⟨(if t = 2 ∧ f = false then [payload.map jsChar] else []) ++ c',
                ?_, isPrefix_append_left _ hp0⟩
              rw [hc', List.append_assoc]

/-- Running the v2 walk over a complete well-formed item sequence
collects exactly the caveats of the sequence. -/
theorem v2Full_run (items : List V2Item) :
    ∀ (pre : List Nat) (f : Bool) (a : List (List Char)),
      (∀ it ∈ items, itemOK it) →
      ∃ n, v2Run (pre ++ encodeItems items) n ⟨(pre.length : Int), f, a⟩ =
        some (a ++ runItemsRel f items) := by
  induction items with
  | nil =>
    intro pre f a _
    refine ⟨1, ?_⟩
    rw [show encodeItems ([] : List V2Item) = [] from rfl, List.append_nil,
      show runItemsRel f ([] : List V2Item) = [] from rfl, List.append_nil]
    exact v2Run_inr 0 (v2Step_oor pre _ (by simp))
  | cons it rest ih =>
    intro pre f a hok
    have hokit : itemOK it := hok it (by simp)
    have hokrest : ∀ x ∈ rest, itemOK x := fun x hx => hok x (by simp [hx])
    cases it with
    | eos =>
      rw [show encodeItems (V2Item.eos :: rest) = 0 :: encodeItems rest from rfl]
      obtain ⟨n, hrun⟩ := ih (pre ++ [0]) false a hokrest
      rw [List.append_assoc, List.singleton_append,
        show ((pre ++ [0] : List Nat).length) = pre.length + 1 from by simp] at hrun
      refine ⟨n + 1, ?_⟩
      rw [v2Run_inl n (v2Step_eos pre (encodeItems rest) f a)]
      rw [show runItemsRel f (V2Item.eos :: rest) = runItemsRel false rest from rfl]
      exact hrun
    | field t payload =>
      obtain ⟨ht0, ht, hpl, -⟩ := hokit
      rw [show encodeItems (V2Item.field t payload :: rest)
          = encodeItem (V2Item.field t payload) ++ encodeItems rest from rfl]
      have hstep := v2Step_field pre payload (encodeItems rest) t f a ht0 ht hpl
      by_cases h6 : t = 6
      · subst h6
        rw [if_pos rfl] at hstep
        refine ⟨1, ?_⟩
        rw [show runItemsRel f (V2Item.field 6 payload :: rest) = [] from rfl,
          List.append_nil]
        exact v2Run_inr 0 hstep
      · rw [if_neg h6] at hstep
        obtain ⟨n, hrun⟩ := ih (pre ++ encodeItem (V2Item.field t payload)) f
          (a ++ (if t = 2 ∧ f = false then [payload.map jsChar] else [])) hokrest
        rw [List.append_assoc,
          show ((pre ++ encodeItem (V2Item.field t payload)).length)
            = pre.length + (encodeItem (V2Item.field t payload)).length from by
              simp] at hrun
        refine ⟨n + 1, ?_⟩
        rw [v2Run_inl n hstep, hrun]
        congr 1
        have hrel : runItemsRel f (V2Item.field t payload :: rest)
            = (if t = 2 ∧ f = false then [payload.map jsChar] else [])
              ++ runItemsRel f rest := by
          simp only [runItemsRel]
          rw [if_neg h6]
        rw [hrel, List.append_assoc]

/-- A run of characters satisfying `p` followed by one that fails it:
what `takeWhile` keeps. -/
theorem takeWhile_run {α} {p : α → Bool} {a : List α} {b : α} (l : List α)
    (ha : ∀ c ∈ a, p c = true) (hb : p b = false) :
    (a ++ b :: l).takeWhile p = a := by
  rw [List.takeWhile_append_of_pos ha, List.takeWhile_cons, hb]
  simp

/-- A run of characters satisfying `p` followed by one that fails it:
what `dropWhile` drops. -/
theorem dropWhile_run {α} {p : α → Bool} {a : List α} {b : α} (l : List α)
    (ha : ∀ c ∈ a, p c = true) (hb : p b = false) :
    (a ++ b :: l).dropWhile p = b :: l := by
  rw [List.dropWhile_append_of_pos ha, List.dropWhile_cons, hb]
  simp

/-- Scanner unfolding: a non-word character is skipped. -/
theorem scanPairsGo_nonword (n : Nat) (c : Char) (rest : List Char)
    (hw : isWordChar c = false) :
    scanPairsGo (n + 1) (c :: rest) = scanPairsGo n rest := by
  simp [scanPairsGo, hw]

/-- Scanner unfolding: a word character whose run is followed by `="`
and a closed value emits the pair and resumes after the closing quote. -/
theorem scanPairsGo_word (n : Nat) (c : Char) (rest : List Char) (e q : Char)
    (r2 : List Char) (hw : isWordChar c = true)
    (hdw : rest.dropWhile isWordChar = e :: q :: r2) :
    scanPairsGo (n + 1) (c :: rest) =
      if e = '=' ∧ q = '"' then
        if (r2.takeWhile (fun x => x ≠ '"')).length < r2.length then
          (c :: rest.takeWhile isWordChar, r2.takeWhile (fun x => x ≠ '"')) ::
            scanPairsGo n ((r2.dropWhile (fun x => x ≠ '"')).tail)
        else scanPairsGo n rest
      else scanPairsGo n rest := by
  simp [scanPairsGo, hw, hdw]

/-- Scanner unfolding: a word character with fewer than two characters
after its run cannot start a match. -/
theorem scanPairsGo_word_short (n : Nat) (c : Char) (rest : List Char)
    (hw : isWordChar c = true)
    (hdw : rest.dropWhile isWordChar = [] ∨ ∃ x, rest.dropWhile isWordChar = [x]) :
    scanPairsGo (n + 1) (c :: rest) = scanPairsGo n rest := by
  rcases hdw with hdw | ⟨x, hdw⟩ <;> simp [scanPairsGo, hw, hdw]

/-- The scanner ignores its fuel as long as the fuel dominates the text
length: every step consumes at least one character. -/
theorem scanPairsGo_fuel :
    ∀ n m (l : List Char), l.length ≤ n → l.length ≤ m →
      scanPairsGo n l = scanPairsGo m l := by
  intro n
  induction n with
  | zero =>
    intro m l hn _
    have : l = [] := List.length_eq_zero.mp (by omega)
    subst this
    cases m <;> rfl
  | succ n ih =>
    intro m l hn hm
    cases l with
    | nil => cases m <;> rfl
    | cons c rest =>
      obtain ⟨m', rfl⟩ : ∃ m', m = m' + 1 :=
        ⟨m - 1, by simp at hm; omega⟩
      simp only [List.length_cons] at hn hm
      by_cases hw : isWordChar c
      · cases hdw : rest.dropWhile isWordChar with
        | nil =>
          rw [scanPairsGo_word_short n c rest hw (Or.inl hdw),
            scanPairsGo_word_short m' c rest hw (Or.inl hdw)]
          exact ih m' rest (by omega) (by omega)
        | cons e tl =>
          cases tl with
          | nil =>
            rw [scanPairsGo_word_short n c rest hw (Or.inr ⟨e, hdw⟩),
              scanPairsGo_word_short m' c rest hw (Or.inr ⟨e, hdw⟩)]
            exact ih m' rest (by omega) (by omega)
          | cons q r2 =>
            rw [scanPairsGo_word n c rest e q r2 hw hdw,
              scanPairsGo_word m' c rest e q r2 hw hdw]
            have hlen : r2.length + 2 ≤ rest.length := by
              have h1 := (List.dropWhile_sublist isWordChar (l := rest)).length_le
              rw [hdw] at h1
              simp at h1
              omega
            by_cases heq : e = '=' ∧ q = '"'
            · rw [if_pos heq, if_pos heq]
              by_cases hclose : (r2.takeWhile (fun x => x ≠ '"')).length < r2.length
              · rw [if_pos hclose, if_pos hclose]
                have htail : ((r2.dropWhile (fun x => x ≠ '"')).tail).length ≤ r2.length := by
                  have h2 := (List.dropWhile_sublist (fun x => x ≠ '"') (l := r2)).length_le
                  rw [List.length_tail]
                  omega
                rw [ih m' ((r2.dropWhile (fun x => x ≠ '"')).tail)
                  (by omega) (by omega)]
              · rw [if_neg hclose, if_neg hclose]
                exact ih m' rest (by omega) (by omega)
            · rw [if_neg heq, if_neg heq]
              exact ih m' rest (by omega) (by omega)
      · rw [scanPairsGo_nonword n c rest (by simpa using hw),
          scanPairsGo_nonword m' c rest (by simpa using hw)]
        exact ih m' rest (by omega) (by omega)

/-- Leading characters that are not word characters cannot start or feed
a match: the scan of `pre ++ l` is the scan of `l`. -/
theorem scanPairs_skip (pre l : List Char)
    (hpre : ∀ c ∈ pre, isWordChar c = false) :
    scanPairs (pre ++ l) = scanPairs l := by
  induction pre with
  | nil => simp
  | cons c pre ih =>
    rw [scanPairs, List.cons_append, List.length_cons,
      scanPairsGo_nonword _ c (pre ++ l) (hpre c (List.mem_cons_self c pre))]
    rw [scanPairsGo_fuel (pre ++ l).length ((pre ++ l).length) (pre ++ l)
      (by simp) (by simp)]
    exact ih (fun c' hc' => hpre c' (List.mem_cons_of_mem c hc'))

/-! ## C5: rendered headers -/

/-- One `key="value"` pair as header text, followed by its separator. -/
def renderPair (k v sep : List Char) : List Char :=
  k ++ ('=' :: '"' :: (v ++ ('"' :: sep)))

/-- A list of pairs as header text. -/
def renderPairs : List (List Char × List Char × List Char) → List Char
  | [] => []
  | (k, v, sep) :: r => renderPair k v sep ++ renderPairs r

/-- A full challenge header: the `L402 ` scheme prefix and the pairs. -/
def mkHeader (ps : List (List Char × List Char × List Char)) : List Char :=
  'L' :: '4' :: '0' :: '2' :: ' ' :: renderPairs ps

/-- Well-formedness of one rendered pair: a non-empty key of word
characters (hence not whitespace), a quote-free value, and a separator
free of word characters (for example `", "` or `" "`). -/
def WFPair : List Char × List Char × List Char → Prop
  | (k, v, sep) =>
    k ≠ [] ∧ (∀ c ∈ k, isWordChar c = true ∧ jsWhitespace c = false) ∧
    (∀ c ∈ v, (c = '"') = False) ∧ (∀ c ∈ sep, isWordChar c = false)

/-- The scanner recovers exactly the rendered pairs, in order. -/
theorem scanPairs_render :
    ∀ ps, (∀ p ∈ ps, WFPair p) →
      scanPairs (renderPairs ps) = ps.map (fun p => (p.1, p.2.1)) := by
  intro ps
  induction ps with
  | nil =>
    intro _
    rfl
  | cons p r ih =>
    intro hwf
    obtain ⟨k, v, sep⟩ := p
    obtain ⟨hk, hkw, hv, hsep⟩ := hwf (k, v, sep) (List.mem_cons_self _ r)
    obtain ⟨kh, kt, rfl⟩ : ∃ kh kt, k = kh :: kt := by
      cases k with
      | nil => exact absurd rfl hk
      | cons kh kt => exact ⟨kh, kt, rfl⟩
    have hkh : isWordChar kh = true := (hkw kh (List.mem_cons_self kh kt)).1
    have hkt : ∀ c ∈ kt, isWordChar c = true :=
      fun c hc => (hkw c (List.mem_cons_of_mem kh hc)).1
    have hbody : renderPairs ((kh :: kt, v, sep) :: r) =
        kh :: (kt ++ '=' :: '"' :: (v ++ ('"' :: (sep ++ renderPairs r)))) := by
      show renderPair (kh :: kt) v sep ++ renderPairs r = _
      rw [renderPair]
      simp
    rw [hbody, scanPairs]
    rw [List.length_cons]
    have hdw : (kt ++ '=' :: '"' :: (v ++ ('"' :: (sep ++ renderPairs r)))).dropWhile isWordChar
        = '=' :: '"' :: (v ++ ('"' :: (sep ++ renderPairs r))) :=
      dropWhile_run _ hkt (by decide)
    rw [scanPairsGo_word _ kh _ '=' '"' (v ++ ('"' :: (sep ++ renderPairs r))) hkh hdw]
    rw [if_pos ⟨rfl, rfl⟩]
    have hvq : ∀ c ∈ v, (fun x => decide (x ≠ '"')) c = true := by
      intro c hc
      simpa using fun hcq => (hv c hc).mp hcq
    have htk : ((v ++ ('"' :: (sep ++ renderPairs r))).takeWhile (fun x => x ≠ '"')) = v :=
      takeWhile_run _ hvq (by simp)
    have hdk : ((v ++ ('"' :: (sep ++ renderPairs r))).dropWhile (fun x => x ≠ '"')) =
        '"' :: (sep ++ renderPairs r) :=
      dropWhile_run _ hvq (by simp)
    rw [if_pos (by
      rw [htk]
      simp only [List.length_append, List.length_cons]
      omega)]
    rw [htk, hdk]
    have hkeep : ((kt ++ '=' :: '"' :: (v ++ ('"' :: (sep ++ renderPairs r)))).takeWhile isWordChar) = kt :=
      takeWhile_run _ hkt (by decide)
    rw [hkeep]
    simp only [List.tail_cons]
    rw [scanPairsGo_fuel _ (sep ++ renderPairs r).length (sep ++ renderPairs r)
      (by simp; omega) (le_refl _)]
    rw [show scanPairsGo (sep ++ renderPairs r).length (sep ++ renderPairs r) =
      scanPairs (sep ++ renderPairs r) from rfl]
    rw [scanPairs_skip sep (renderPairs r) hsep]
    rw [ih (fun q hq => hwf q (List.mem_cons_of_mem _ hq))]
    rfl

/-! ## C5: last-wins lookup under permutation -/

/-- Whether a scanned pair's case-folded key equals `k`. -/
def keyIs (k : List Char) (p : List Char × List Char) : Bool :=
  decide (p.1.map lowerChar = k)

/-- The value of the last pair of a list, or a default. -/
def lastValD (l : List (List Char × List Char)) (d : List Char) : List Char :=
  match l.getLast? with
  | some p => p.2
  | none => d

/-- Stepping `lastValD` past a head element replaces the default. -/
theorem lastValD_cons (p : List Char × List Char)
    (l : List (List Char × List Char)) (d : List Char) :
    lastValD (p :: l) d = lastValD l p.2 := by
  cases l with
  | nil => rfl
  | cons q l' =>
    rw [lastValD, lastValD, List.getLast?_cons_cons]
    cases hq : (q :: l').getLast? with
    | some x => rfl
    | none =>
      rw [List.getLast?_eq_none_iff] at hq
      exact List.noConfusion hq

/-- The fold of `lastPairsStep` keeps, for each of the two keys, the
value of the last matching pair (or the accumulator's component when no
pair matches). -/
theorem lastPairs_foldl_char :
    ∀ (ps : List (List Char × List Char)) (acc : List Char × List Char),
      ps.foldl lastPairsStep acc =
        (lastValD (ps.filter (keyIs macaroonKey)) acc.1,
         lastValD (ps.filter (keyIs invoiceKey)) acc.2) := by
  intro ps
  induction ps with
  | nil => intro acc; rfl
  | cons p r ih =>
    intro acc
    rw [List.foldl_cons, ih (lastPairsStep acc p)]
    by_cases hm : p.1.map lowerChar = macaroonKey
    · have hstep : lastPairsStep acc p = (p.2, acc.2) := by
        simp [lastPairsStep, hm]
      have hfm : (p :: r).filter (keyIs macaroonKey) =
          p :: r.filter (keyIs macaroonKey) := by
        rw [List.filter_cons, if_pos (by simp [keyIs, hm])]
      have hfi : (p :: r).filter (keyIs invoiceKey) =
          r.filter (keyIs invoiceKey) := by
        rw [List.filter_cons, if_neg (by simp [keyIs, hm, macaroonKey, invoiceKey])]
      rw [hstep, hfm, hfi, lastValD_cons]
    · by_cases hi : p.1.map lowerChar = invoiceKey
      · have hstep : lastPairsStep acc p = (acc.1, p.2) := by
          simp [lastPairsStep, hi, macaroonKey, invoiceKey]
        have hfm : (p :: r).filter (keyIs macaroonKey) =
            r.filter (keyIs macaroonKey) := by
          rw [List.filter_cons, if_neg (by simp [keyIs, hm])]
        have hfi : (p :: r).filter (keyIs invoiceKey) =
            p :: r.filter (keyIs invoiceKey) := by
          rw [List.filter_cons, if_pos (by simp [keyIs, hi])]
        rw [hstep, hfm, hfi, lastValD_cons]
      · have hstep : lastPairsStep acc p = acc := by
          rw [lastPairsStep]
          simp [hm, hi]
        have hfm : (p :: r).filter (keyIs macaroonKey) =
            r.filter (keyIs macaroonKey) := by
          rw [List.filter_cons, if_neg (by simp [keyIs, hm])]
        have hfi : (p :: r).filter (keyIs invoiceKey) =
            r.filter (keyIs invoiceKey) := by
          rw [List.filter_cons, if_neg (by simp [keyIs, hi])]
        rw [hstep, hfm, hfi]

/-- A duplicate-free list whose members all equal `a` has at most one
member. -/
theorem length_le_one_of_nodup_const {α} {l : List α} {a : α}
    (hn : l.Nodup) (ha : ∀ x ∈ l, x = a) : l.length ≤ 1 := by
  cases l with
  | nil => simp
  | cons x l' =>
    cases l' with
    | nil => simp
    | cons y l'' =>
      exfalso
      have hx : x = a := ha x (by simp)
      have hy : y = a := ha y (by simp)
      rw [List.nodup_cons] at hn
      exact hn.1 (hx ▸ hy ▸ List.mem_cons_self a _)

/-- With pairwise-distinct case-folded keys, at most one pair matches a
given key. -/
theorem filter_keyIs_len_le_one (ps : List (List Char × List Char))
    (k : List Char) (h : (ps.map (fun p => p.1.map lowerChar)).Nodup) :
    (ps.filter (keyIs k)).length ≤ 1 := by
  have hsub : List.Sublist ((ps.filter (keyIs k)).map (fun p => p.1.map lowerChar))
      (ps.map (fun p => p.1.map lowerChar)) :=
    (List.filter_sublist ps).map _
  have hnodup := h.sublist hsub
  have hconst : ∀ x ∈ (ps.filter (keyIs k)).map (fun p => p.1.map lowerChar), x = k := by
    intro x hx
    rw [List.mem_map] at hx
    obtain ⟨p, hp, rfl⟩ := hx
    have := List.of_mem_filter hp
    simpa [keyIs] using this
  have := length_le_one_of_nodup_const hnodup hconst
  simpa using this

/-- Permutations of lists with at most one element are equalities. -/
theorem perm_eq_of_length_le_one {α} {l l' : List α}
    (h : l.Perm l') (hl : l.length ≤ 1) : l = l' := by
  cases l with
  | nil => rw [(h.symm).eq_nil]
  | cons x xs =>
    cases xs with
    | nil => rw [List.perm_singleton.mp h.symm]
    | cons y ys => simp at hl

/-- `lastPairs` is invariant under permutation of the scanned pairs when
no case-folded key occurs twice. -/
theorem lastPairs_perm (ps ps' : List (List Char × List Char))
    (hperm : ps.Perm ps')
    (hnodup : (ps.map (fun p => p.1.map lowerChar)).Nodup) :
    lastPairs ps = lastPairs ps' := by
  rw [lastPairs, lastPairs, lastPairs_foldl_char, lastPairs_foldl_char]
  rw [perm_eq_of_length_le_one (hperm.filter (keyIs macaroonKey))
    (filter_keyIs_len_le_one ps macaroonKey hnodup)]
  rw [perm_eq_of_length_le_one (hperm.filter (keyIs invoiceKey))
    (filter_keyIs_len_le_one ps invoiceKey hnodup)]

/-- Stripping the scheme prefix from a rendered header leaves exactly
the rendered pairs. -/
theorem stripL402Prefix_mkHeader (ps : List (List Char × List Char × List Char))
    (hwf : ∀ p ∈ ps, WFPair p) :
    stripL402Prefix (mkHeader ps) = renderPairs ps := by
  rw [mkHeader, stripL402Prefix]
  rw [if_pos (by
    exact ⟨⟨by decide, Or.inl ⟨rfl, rfl, rfl⟩⟩, by simp,
      (by decide : jsWhitespace ' ' = true)⟩)]
  cases ps with
  | nil => rfl
  | cons p r =>
    obtain ⟨k, v, sep⟩ := p
    obtain ⟨hk, hkw, _, _⟩ := hwf (k, v, sep) (List.mem_cons_self _ r)
    obtain ⟨kh, kt, rfl⟩ : ∃ kh kt, k = kh :: kt := by
      cases k with
      | nil => exact absurd rfl hk
      | cons kh kt => exact ⟨kh, kt, rfl⟩
    have hbody : renderPairs ((kh :: kt, v, sep) :: r) =
        kh :: (kt ++ '=' :: '"' :: (v ++ ('"' :: (sep ++ renderPairs r)))) := by
      show renderPair (kh :: kt) v sep ++ renderPairs r = _
      rw [renderPair]
      simp
    rw [hbody]
    rw [List.dropWhile_cons, if_pos (by decide), List.dropWhile_cons,
      if_neg (by simp [(hkw kh (List.mem_cons_self kh kt)).2])]

/-! ## C5 -/

/-- C5 (amended): `parseL402Challenge` is order-independent for headers
whose `key="value"` pairs have pairwise-distinct case-folded keys:
permuting the pairs — with arbitrary word-character-free separator text
between them, so switching between comma and space separators is
included — yields an identical parse result.  (The amendment adds the
distinct-keys condition: with a duplicated key the scan is last-wins, so
permuting two pairs that share a key changes the result, see the
counterexample.) -/
theorem parseL402Challenge_order_independent (fuel : Nat)
    (ps ps' : List (List Char × List Char × List Char))
    (hwf : ∀ p ∈ ps, WFPair p) (hwf' : ∀ p ∈ ps', WFPair p)
    (hperm : (ps.map (fun p => (p.1, p.2.1))).Perm (ps'.map (fun p => (p.1, p.2.1))))
    (hnodup : (ps.map (fun p => p.1.map lowerChar)).Nodup) :
    parseL402Challenge fuel (mkHeader ps) = parseL402Challenge fuel (mkHeader ps') := by
  have hstrip := stripL402Prefix_mkHeader ps hwf
  have hstrip' := stripL402Prefix_mkHeader ps' hwf'
  have hlast : lastPairs (scanPairs (stripL402Prefix (mkHeader ps))) =
      lastPairs (scanPairs (stripL402Prefix (mkHeader ps'))) := by
    rw [hstrip, hstrip', scanPairs_render ps hwf, scanPairs_render ps' hwf']
    refine lastPairs_perm _ _ hperm ?_
    have hmm : (ps.map (fun p => (p.1, p.2.1))).map (fun p => p.1.map lowerChar) =
        ps.map (fun p => p.1.map lowerChar) := by
      rw [List.map_map]
      rfl
    rw [hmm]
    exact hnodup
  simp only [parseL402Challenge, hlast]

/-- C5 witness: the two headers of the claim parse identically. -/
theorem parseL402Challenge_order_independent_witness :
    parseL402Challenge 1 ("L402 invoice=\"abc\", macaroon=\"AAA=\"".data) =
      parseL402Challenge 1 ("L402 macaroon=\"AAA=\", invoice=\"abc\"".data) := by
  have h := parseL402Challenge_order_independent 1
    [("invoice".data, "abc".data, (", ").data), ("macaroon".data, "AAA=".data, [])]
    [("macaroon".data, "AAA=".data, (", ").data), ("invoice".data, "abc".data, [])]
    (by
      intro p hp
      simp only [List.mem_cons, List.mem_singleton] at hp
      rcases hp with rfl | rfl | h
      · exact ⟨by decide, by decide, by decide, by decide⟩
      · exact ⟨by decide, by decide, by decide, by decide⟩
      · cases h)
    (by
      intro p hp
      simp only [List.mem_cons, List.mem_singleton] at hp
      rcases hp with rfl | rfl | h
      · exact ⟨by decide, by decide, by decide, by decide⟩
      · exact ⟨by decide, by decide, by decide, by decide⟩
      · cases h)
    (by decide) (by decide)
  have e1 : mkHeader [("invoice".data, "abc".data, (", ").data),
      ("macaroon".data, "AAA=".data, [])] =
      ("L402 invoice=\"abc\", macaroon=\"AAA=\"".data) := by decide
  have e2 : mkHeader [("macaroon".data, "AAA=".data, (", ").data),
      ("invoice".data, "abc".data, [])] =
      ("L402 macaroon=\"AAA=\", invoice=\"abc\"".data) := by decide
  rw [e1, e2] at h
  exact h

/-- C5 counterexample: with a duplicated `macaroon` key the pair
multiset is permuted between the two headers, yet the parses differ
(the scan is last-occurrence-wins), so order independence fails for
arbitrary sets of pairs. -/
theorem parseL402Challenge_order_dependent_duplicate :
    (scanPairs (stripL402Prefix
        ("L402 macaroon=\"QQ==\" macaroon=\"AAA=\" invoice=\"i\"".data))).Perm
      (scanPairs (stripL402Prefix
        ("L402 macaroon=\"AAA=\" macaroon=\"QQ==\" invoice=\"i\"".data))) ∧
    parseL402Challenge 1 ("L402 macaroon=\"QQ==\" macaroon=\"AAA=\" invoice=\"i\"".data) ≠
      parseL402Challenge 1 ("L402 macaroon=\"AAA=\" macaroon=\"QQ==\" invoice=\"i\"".data) := by
  constructor
  · decide
  · decide

/-! ## C6 -/

/-- C6 (amended): `parseL402Challenge` returns "no challenge" exactly
when the last-wins `macaroon` value or the last-wins `invoice` value of
the scanned `key="value"` pairs is empty — a pair that was found with an
empty quoted value counts as missing, because the guard is the JS
truthiness test `!macaroon || !invoice`.  Whenever both values are
non-empty and the macaroon decode terminates, it returns a Challenge
built from them; and `parseL402Challenge("Bearer foo")` returns "no
challenge". -/
theorem parseL402Challenge_null_iff :
    (∀ fuel h, parseL402Challenge fuel h = some none ↔
      ((lastPairs (scanPairs (stripL402Prefix h))).1 = [] ∨
       (lastPairs (scanPairs (stripL402Prefix h))).2 = [])) ∧
    (∀ fuel h ch, parseL402Challenge fuel h = some (some ch) →
      ch.macaroon = (lastPairs (scanPairs (stripL402Prefix h))).1 ∧
      ch.invoice = (lastPairs (scanPairs (stripL402Prefix h))).2 ∧
      ch.macaroon ≠ [] ∧ ch.invoice ≠ [] ∧
      getMaxBandwidthFromMacaroon fuel ch.macaroon = some ch.maxBandwidth ∧
      getExpirationFromMacaroon fuel ch.macaroon = some ch.expiry) ∧
    (∀ fuel h bw ex,
      getMaxBandwidthFromMacaroon fuel
        (lastPairs (scanPairs (stripL402Prefix h))).1 = some bw →
      getExpirationFromMacaroon fuel
        (lastPairs (scanPairs (stripL402Prefix h))).1 = some ex →
      (lastPairs (scanPairs (stripL402Prefix h))).1 ≠ [] →
      (lastPairs (scanPairs (stripL402Prefix h))).2 ≠ [] →
      parseL402Challenge fuel h = some (some
        ⟨(lastPairs (scanPairs (stripL402Prefix h))).1,
         (lastPairs (scanPairs (stripL402Prefix h))).2, bw, ex⟩)) ∧
    parseL402Challenge 1 ("Bearer foo".data) = some none := by
  refine ⟨?_, ?_, ?_, by decide⟩
  · intro fuel h
    simp only [parseL402Challenge]
    by_cases hc : (lastPairs (scanPairs (stripL402Prefix h))).1 = [] ∨
        (lastPairs (scanPairs (stripL402Prefix h))).2 = []
    · rw [if_pos hc]
      simp [hc]
    · rw [if_neg hc]
      constructor
      · intro hp
        exfalso
        revert hp
        cases getMaxBandwidthFromMacaroon fuel
            (lastPairs (scanPairs (stripL402Prefix h))).1 with
        | none => simp
        | some bw =>
          cases getExpirationFromMacaroon fuel
              (lastPairs (scanPairs (stripL402Prefix h))).1 with
          | none => simp
          | some ex => simp
      · intro hd
        exact absurd hd hc
  · intro fuel h ch hp
    simp only [parseL402Challenge] at hp
    by_cases hc : (lastPairs (scanPairs (stripL402Prefix h))).1 = [] ∨
        (lastPairs (scanPairs (stripL402Prefix h))).2 = []
    · rw [if_pos hc] at hp
      simp at hp
    · rw [if_neg hc] at hp
      push_neg at hc
      revert hp
      cases hbw : getMaxBandwidthFromMacaroon fuel
          (lastPairs (scanPairs (stripL402Prefix h))).1 with
      | none => simp
      | some bw =>
        cases hex : getExpirationFromMacaroon fuel
            (lastPairs (scanPairs (stripL402Prefix h))).1 with
        | none => simp
        | some ex =>
          intro hp
          simp only [Option.some.injEq] at hp
          rw [← hp]
          exact ⟨rfl, rfl, hc.1, hc.2, hbw, hex⟩
  · intro fuel h bw ex hbw hex h1 h2
    simp only [parseL402Challenge]
    rw [if_neg (by simp [h1, h2])]
    simp only [hbw, hex]

/-- C6 witness: on a header with non-empty macaroon and invoice values,
the parser returns the Challenge built from them. -/
theorem parseL402Challenge_null_iff_witness :
    parseL402Challenge 1 ("L402 macaroon=\"AAA=\" invoice=\"xyz\"".data) =
      some (some ⟨"AAA=".data, "xyz".data, JSNum.val 0, JSNum.val 0⟩) := by
  have h := parseL402Challenge_null_iff.2.2.1 1
    ("L402 macaroon=\"AAA=\" invoice=\"xyz\"".data) (JSNum.val 0) (JSNum.val 0)
    (by decide) (by decide) (by decide) (by decide)
  exact h.trans (by decide)

/-- C6 counterexample: in `L402 macaroon="" invoice="x"` the scan does
find a `macaroon` pair (with empty value) and an `invoice` pair, yet the
parse returns "no challenge" — so "fails exactly when no macaroon pair
or no invoice pair was found" is wrong as stated. -/
theorem parseL402Challenge_empty_value_null :
    ("macaroon".data, ([] : List Char)) ∈
      scanPairs (stripL402Prefix ("L402 macaroon=\"\" invoice=\"x\"".data)) ∧
    ("invoice".data, "x".data) ∈
      scanPairs (stripL402Prefix ("L402 macaroon=\"\" invoice=\"x\"".data)) ∧
    parseL402Challenge 1 ("L402 macaroon=\"\" invoice=\"x\"".data) = some none := by
  decide

/-! ## C9 -/

/-- C9 (amended): for every current time, loader context and token whose
credential is non-empty and whose expiry is set, non-zero and strictly
in the past, `applyL402Header` returns the context unchanged: no
`Authorization` entry is written and the headers collection (including
its absence) is exactly as it was.  (The amendment adds "non-zero": the
guard is a JS truthiness test, so an expiry equal to 0 — also a time
strictly in the past — does not suppress injection; see the
counterexample.) -/
theorem applyL402Header_past_expiry_skips (now : Nat) (ctx : LoaderContext)
    (t : L402Token) (e : Nat) (hc : t.credential ≠ []) (he : t.expiry = some e)
    (h0 : e ≠ 0) (hlt : e < now) :
    applyL402Header now ctx (some t) = ctx := by
  simp [applyL402Header, hc, he, h0, hlt]

/-- C9 witness: a token expiring one millisecond before the current
time leaves the context untouched. -/
theorem applyL402Header_past_expiry_skips_witness :
    applyL402Header 5 ⟨none⟩ (some ⟨['c'], 0, some 4⟩) = ⟨none⟩ :=
  applyL402Header_past_expiry_skips 5 ⟨none⟩ ⟨['c'], 0, some 4⟩ 4
    (by decide) rfl (by decide) (by decide)

/-- C9 counterexample: a token with non-empty credential and expiry 0 —
the epoch, strictly in the past at current time 5 — does modify the
context: the `Authorization` header is written, because `token.expiry &&`
treats 0 as absent. -/
theorem applyL402Header_epoch_expiry_writes :
    (['c'] : List Char) ≠ [] ∧ 0 < 5 ∧
    applyL402Header 5 ⟨none⟩ (some ⟨['c'], 0, some 0⟩) ≠ (⟨none⟩ : LoaderContext) := by
  decide

/-! ## C10 -/

/-- C10: for every current time and every token with a non-empty
credential whose expiry field equals 0, `applyL402Header` injects
`Authorization: L402 <credential>` (preserving all other header
entries), exactly as it does for an absent expiry: the expiry guard is a
truthiness test, so expiry 0 means "never expires". -/
theorem applyL402Header_zero_expiry_injects (now : Nat) (ctx : LoaderContext)
    (t : L402Token) (hc : t.credential ≠ []) (he : t.expiry = some 0) :
    applyL402Header now ctx (some t) =
      { headers := some ⟨some (['L', '4', '0', '2', ' '] ++ t.credential),
          (ctx.headers.getD ⟨none, []⟩).others⟩ } ∧
    applyL402Header now ctx (some t) =
      applyL402Header now ctx (some { t with expiry := none }) := by
  constructor
  · simp [applyL402Header, hc, he]
  · simp [applyL402Header, hc, he]

/-- C10 witness: at time 99, a credential with expiry 0 is injected and
the pre-existing header entries survive. -/
theorem applyL402Header_zero_expiry_injects_witness :
    applyL402Header 99 ⟨some ⟨none, [(['x'], ['y'])]⟩⟩ (some ⟨['c'], 7, some 0⟩) =
      { headers := some ⟨some ['L', '4', '0', '2', ' ', 'c'], [(['x'], ['y'])]⟩ } := by
  have h := (applyL402Header_zero_expiry_injects 99 ⟨some ⟨none, [(['x'], ['y'])]⟩⟩
    ⟨['c'], 7, some 0⟩ (by decide) rfl).1
  exact h.trans (by decide)

/-! ## C1 -/

/-- C1 (amended): for every byte buffer that is a valid macaroon-v2
encoding and every `n` not exceeding its length, the v2 caveat extractor
terminates on the `n`-byte prefix of the buffer for some fuel (the
`while` loop exits normally, so nothing is raised) and terminates on the
full buffer, and the caveat list returned for the prefix is a prefix of
the caveat list returned for the full buffer, possibly extended by one
final spurious empty-string caveat (pushed when a truncated length
varint inside a caveat section decodes to 0 at the end of the buffer). -/
theorem extractCaveatsV2_truncation (d : List Nat) (n : Nat)
    (hv : ValidV2 d) (hn : n ≤ d.length) :
    ∃ fuelT fuelF rT rF,
      extractCaveatsV2 (d.take n) fuelT = some rT ∧
      extractCaveatsV2 d fuelF = some rF ∧
      (rT <+: rF ∨ ∃ r', rT = r' ++ [[]] ∧ r' <+: rF) := by
  obtain ⟨items, rfl, hok⟩ := hv
  obtain ⟨nF, hF⟩ := v2Full_run items [2] true [] hok
  rw [show ([2] : List Nat) ++ encodeItems items = 2 :: encodeItems items from rfl,
    show (([2] : List Nat)).length = 1 from rfl, Nat.cast_one, List.nil_append] at hF
  have hF' : extractCaveatsV2 (2 :: encodeItems items) nF = some (runItemsRel true items) := by
    rw [extractCaveatsV2]
    exact hF
  rcases n with _ | n'
  · refine ⟨1, nF, [], runItemsRel true items, ?_, hF', Or.inl List.nil_prefix⟩
    rw [List.take_zero, extractCaveatsV2]
    exact v2Run_inr 0 (v2Step_oor [] _ (by simp))
  · have hn' : n' ≤ (encodeItems items).length := by
      simp [List.length_cons] at hn
      omega
    obtain ⟨nT, rT, hT, c, hrc, hpref⟩ := v2Trunc_run items [2] n' true [] hok hn'
    rw [show ([2] : List Nat) ++ (encodeItems items).take n' =
        2 :: (encodeItems items).take n' from rfl,
      show (([2] : List Nat)).length = 1 from rfl, Nat.cast_one] at hT
    have hrc' : rT = c := by simpa using hrc
    subst hrc'
    refine ⟨nT, nF, rT, runItemsRel true items, ?_, hF', hpref⟩
    rw [show (2 :: encodeItems items).take (n' + 1) = 2 :: (encodeItems items).take n' from rfl,
      extractCaveatsV2]
    exact hT

/-- C1 witness: the valid two-byte v2 macaroon `02 00` (version byte and
one EOS item) truncated to one byte: both runs terminate and the caveat
list of the truncated run is a prefix of the full one. -/
theorem extractCaveatsV2_truncation_witness :
    ValidV2 [2, 0] ∧ 1 ≤ ([2, 0] : List Nat).length ∧
      (∃ fuelT fuelF rT rF,
        extractCaveatsV2 (([2, 0] : List Nat).take 1) fuelT = some rT ∧
        extractCaveatsV2 [2, 0] fuelF = some rF ∧
        (rT <+: rF ∨ ∃ r', rT = r' ++ [[]] ∧ r' <+: rF)) :=
  ⟨⟨[V2Item.eos], rfl, by
      intro it hit
      rw [List.mem_singleton] at hit
      subst hit
      trivial⟩,
    by decide,
    extractCaveatsV2_truncation [2, 0] 1
      ⟨[V2Item.eos], rfl, by
        intro it hit
        rw [List.mem_singleton] at hit
        subst hit
        trivial⟩
      (by decide)⟩

/-- C1 counterexample to the unamended claim: truncating the valid v2
macaroon `02 02 01 69 00 02 03 61 62 63 00 00 06 01 99` (header
identifier `i`, EOS, caveat identifier `abc`, EOS, EOS, signature `99`)
to its first 6 bytes makes the truncated length varint read 0 at the end
of the buffer inside the caveat section, so the extractor returns the
caveat list `[""]` — not a prefix of the full run's caveat list
`["abc"]`. -/
theorem extractCaveatsV2_truncation_strict :
    ValidV2 [2, 2, 1, 105, 0, 2, 3, 97, 98, 99, 0, 0, 6, 1, 153] ∧
    extractCaveatsV2
        (([2, 2, 1, 105, 0, 2, 3, 97, 98, 99, 0, 0, 6, 1, 153] : List Nat).take 6) 4
      = some [[]] ∧
    extractCaveatsV2 [2, 2, 1, 105, 0, 2, 3, 97, 98, 99, 0, 0, 6, 1, 153] 6
      = some [['a', 'b', 'c']] ∧
    ¬ (([[]] : List (List Char)) <+: [['a', 'b', 'c']]) :=
  ⟨⟨[V2Item.field 2 [105], V2Item.eos, V2Item.field 2 [97, 98, 99], V2Item.eos,
      V2Item.eos, V2Item.field 6 [153]], rfl, by
      intro it hit
      fin_cases hit <;> trivial⟩,
    by decide, by decide, by decide⟩

end L402
